import Mathlib

/-! # go-password: Argon2 hashing, encoding and verification

A shallow embedding of `argon2.go`, `error.go` and `salt.go` of the package
`password`,
together with the parts of the Go standard library the package calls
(`strings.Split`, `fmt.Sprintf`, `fmt.Sscanf`,
`encoding/base64.RawStdEncoding`).

Modelling conventions

* A Go `string` is a `String` (a sequence of Unicode scalar values), so the
  development speaks about the strings that are valid UTF-8.
* A Go `[]byte` is a `List Byte` with `Byte = Fin 256`.  The distinction
  between a nil and an empty slice is not kept: every slice the package
  compares is produced by `make`, so it is never nil.
* `uint32`, `uint8` and `int` fields are `Nat` / `Int`; the range of the Go
  type is the predicate `Argon2Params.WellTyped`, and a conversion such as
  `uint32(len(salt))` is written with an explicit `% 2 ^ 32`.
* A Go `(value, error)` result is an `Except Error value`; `VerifyArgon2`
  keeps its pair `(bool, error)` as `Bool × Option Error`.
* The random source `crypto/rand` is a parameter: a step function on the state
  of the source (`RandRead`), so `SecureSalt` and `HashArgon2` return the next
  state together with their result.
* The key derivation primitive `golang.org/x/crypto/argon2` is a parameter
  (`Argon2Primitive`): two total functions `IDKey` and `Key`.  The panics of
  the real primitive (a time or a parallelism of zero) are not modelled.
* Integers are scanned on a 64-bit platform (`int` has 64 bits), and a text
  handed to `fmt.Sscanf` is shorter than the `2 ^ 30` characters after which
  `fmt` stops reading.
-/

namespace Password

/-! ## error.go and the errors of the library calls -/

/-- Error values that the package can return: the three variables of
`error.go`, and the errors produced by `fmt.Sscanf`,
`base64.RawStdEncoding.DecodeString` and `crypto/rand.Read`, which the package
hands on unchanged.  The text carried by a library error is not kept, only its
kind (and the byte offset of a `base64.CorruptInputError`). -/
inductive Error where
  /-- `ErrUnknownAlgorithm`: "unknown/unsupported hashing algorithm". -/
  | ErrUnknownAlgorithm
  /-- `ErrVersionMismatch`: "algorithm version mismatch". -/
  | ErrVersionMismatch
  /-- `ErrEncodingFormat`: "wrong encoding format". -/
  | ErrEncodingFormat
  /-- `io.ErrUnexpectedEOF`, from `fmt`: the input ended inside literal text. -/
  | scanUnexpectedEOF
  /-- `io.EOF`, from `fmt`: the input ended where a number had to start. -/
  | scanEOF
  /-- The error "input does not match format" of `fmt`. -/
  | scanNoMatch
  /-- The error "unexpected newline" of `fmt`. -/
  | scanUnexpectedNewline
  /-- The error "expected integer" of `fmt`. -/
  | scanExpectedInteger
  /-- A `strconv.NumError` (value out of range) passed on by `fmt`. -/
  | scanRange
  /-- The error "integer overflow on token" / "unsigned integer overflow on
  token" of `fmt`. -/
  | scanOverflow
  /-- A format string outside the fragment modelled here (never reached by
  the two format strings of the package). -/
  | scanBadFormat
  /-- The error `base64.CorruptInputError(offset)`. -/
  | base64Corrupt (offset : Nat)
  /-- An error returned by `crypto/rand.Read`. -/
  | randRead (code : Nat)
  deriving DecidableEq, Repr

open Error

deriving instance DecidableEq for Except

/-- A byte of a Go `[]byte`. -/
abbrev Byte := Fin 256

/-! ## The parameter model (`argon2.go`, lines 11-50) -/

/-- The constant `AlgorithmArgon2id` (`iota` = 0) of type `Argon2Algorithm`
(`uint8`). -/
def AlgorithmArgon2id : Nat := 0

/-- The constant `AlgorithmArgon2i` (`iota` = 1). -/
def AlgorithmArgon2i : Nat := 1

/-- The struct `Argon2Params`. -/
structure Argon2Params where
  /-- `Algorithm Argon2Algorithm` (a `uint8`). -/
  Algorithm : Nat
  /-- `SaltLength uint32`. -/
  SaltLength : Nat
  /-- `KeyLength uint32`. -/
  KeyLength : Nat
  /-- `Time uint32`. -/
  Time : Nat
  /-- `Memory uint32`. -/
  Memory : Nat
  /-- `Threads uint8`. -/
  Threads : Nat
  /-- `Version int` (64 bits). -/
  Version : Int
  deriving DecidableEq, Repr

/-- Every field lies in the range of its Go type. -/
def Argon2Params.WellTyped (p : Argon2Params) : Prop :=
  p.Algorithm < 2 ^ 8 ∧ p.SaltLength < 2 ^ 32 ∧ p.KeyLength < 2 ^ 32 ∧
  p.Time < 2 ^ 32 ∧ p.Memory < 2 ^ 32 ∧ p.Threads < 2 ^ 8 ∧
  -(2 : Int) ^ 63 ≤ p.Version ∧ p.Version < (2 : Int) ^ 63

instance (p : Argon2Params) : Decidable p.WellTyped := by
  unfold Argon2Params.WellTyped; infer_instance

/-- The function `argon2AlgorithmToString`: the name of an algorithm value. -/
def argon2AlgorithmToString (alg : Nat) : Except Error String :=
  if alg = AlgorithmArgon2id then .ok "argon2id"
  else if alg = AlgorithmArgon2i then .ok "argon2i"
  else .error ErrUnknownAlgorithm

/-- The function `argon2StringToAlgorithm`: the algorithm value of a name. -/
def argon2StringToAlgorithm (alg : String) : Except Error Nat :=
  if alg = "argon2id" then .ok AlgorithmArgon2id
  else if alg = "argon2i" then .ok AlgorithmArgon2i
  else .error ErrUnknownAlgorithm

/-! ## `strings.Split` -/

/-- The call `strings.Split(s, sep)` for a separator of one character: the
segments of `s` between the occurrences of `sep`, always at least one. -/
def stringsSplit (sep : Char) : List Char → List (List Char)
  | [] => [[]]
  | c :: cs =>
    if c = sep then [] :: stringsSplit sep cs
    else
      match stringsSplit sep cs with
      | [] => [[c]]
      | seg :: segs => (c :: seg) :: segs

/-! ## Decimal numbers (`strconv`) -/

/-- The character of a decimal digit: `byte('0' + d)`. -/
def digitChar (d : Nat) : Char := Char.ofNat (48 + d)

/-- The decimal digits of `n`, least significant first (the loop of
`strconv.FormatUint`); `fuel` bounds the number of digits. -/
def decimalDigitsRev : Nat → Nat → List Char
  | 0, _ => []
  | fuel + 1, n =>
    if n < 10 then [digitChar n]
    else digitChar (n % 10) :: decimalDigitsRev fuel (n / 10)

/-- The verb `%d` of `fmt.Sprintf` on a non-negative integer. -/
def formatDecimal (n : Nat) : List Char := (decimalDigitsRev (n + 1) n).reverse

/-- Membership in `decimalDigits = "0123456789"`. -/
def isDecimalDigit (c : Char) : Bool := 48 ≤ c.toNat && c.toNat ≤ 57

/-- The value of one character in `strconv.ParseUint`: `c - '0'` for a decimal
digit (no other character occurs in a token that `fmt` has scanned). -/
def digitValue (c : Char) : Nat := if isDecimalDigit c then c.toNat - 48 else 0

/-- The value of a run of decimal digits, most significant first, continuing
from `acc` (the loop of `strconv.ParseUint`, without its range check). -/
def parseDecimal (acc : Nat) : List Char → Nat
  | [] => acc
  | c :: cs => parseDecimal (acc * 10 + digitValue c) cs

/-! ## `fmt.Sprintf` -/

/-- An operand of `fmt.Sprintf`: a string, or a non-negative integer (every
integer the package formats is a `uint32`, a `uint8` or the constant
`argon2.Version`). -/
inductive FmtArg where
  | str (s : List Char)
  | uint (n : Nat)

/-- The function `fmt.Sprintf` on the fragment the package uses: literal text,
the verb `%s` on a string and the verb `%d` on a non-negative integer.  Outside
the fragment the output stops with the marker `%!`. -/
def Sprintf : List Char → List FmtArg → List Char
  | [], _ => []
  | c :: fmt, args =>
    if c = '%' then
      match fmt, args with
      | v :: fmt', FmtArg.str s :: args' =>
        if v = 's' then s ++ Sprintf fmt' args' else ['%', '!']
      | v :: fmt', FmtArg.uint n :: args' =>
        if v = 'd' then formatDecimal n ++ Sprintf fmt' args' else ['%', '!']
      | _, _ => ['%', '!']
    else c :: Sprintf fmt args

/-! ## `fmt.Sscanf` -/

/-- The function `isSpace` of `fmt/scan.go`: the table `space` of blank runes. -/
def isSpace (c : Char) : Bool :=
  let r := c.toNat
  (0x0009 ≤ r && r ≤ 0x000d) || r == 0x0020 || r == 0x0085 || r == 0x00a0 ||
  r == 0x1680 || (0x2000 ≤ r && r ≤ 0x200a) || (0x2028 ≤ r && r ≤ 0x2029) ||
  r == 0x202f || r == 0x205f || r == 0x3000

/-- The method `(*ss).SkipSpace` as `Sscanf` runs it (`nlIsSpace` is false):
blanks are dropped, a newline is the error "unexpected newline". -/
def SkipSpace : List Char → Except Error (List Char)
  | [] => .ok []
  | c :: cs =>
    if c = '\n' then .error scanUnexpectedNewline
    else if isSpace c then SkipSpace cs
    else .ok (c :: cs)

/-- The pointer types the package hands to `fmt.Sscanf`: `*int`, `*uint8`,
`*uint32`. -/
inductive ScanArg where
  | int
  | uint8
  | uint32
  deriving DecidableEq, Repr

/-- The method `(*ss).scanNumber` for decimal digits with `haveDigits` false:
at least one digit, then as many as follow.  Returns the token and the rest of
the input. -/
def scanNumber : List Char → Except Error (List Char × List Char)
  | [] => .error scanEOF
  | c :: cs =>
    if isDecimalDigit c then
      .ok (c :: cs.takeWhile isDecimalDigit, cs.dropWhile isDecimalDigit)
    else .error scanExpectedInteger

/-- The method `(*ss).scanUint` for the verb `%d`: blanks, digits,
`strconv.ParseUint(tok, 10, 64)`, then the check that the value fits
`bitSize` bits. -/
def scanUint (bitSize : Nat) (input : List Char) : Except Error (Int × List Char) :=
  match SkipSpace input with
  | .error e => .error e
  | .ok [] => .error scanEOF
  | .ok (c :: cs) =>
    match scanNumber (c :: cs) with
    | .error e => .error e
    | .ok (tok, rest) =>
      let i := parseDecimal 0 tok
      if 2 ^ 64 ≤ i then .error scanRange
      else if 2 ^ bitSize ≤ i then .error scanOverflow
      else .ok ((i : Int), rest)

/-- The end of `(*ss).scanInt`: `strconv.ParseInt(tok, 10, 64)` on a token
made of an optional sign (`neg` tells whether it is `-`) and of `digits`, then
the check that the value fits `bitSize` bits. -/
def intOfToken (bitSize : Nat) (neg : Bool) (digits : List Char) : Except Error Int :=
  let n := parseDecimal 0 digits
  let i : Int := if neg then -(n : Int) else (n : Int)
  if i < -(2 : Int) ^ 63 ∨ (2 : Int) ^ 63 ≤ i then .error scanRange
  else if i < -(2 : Int) ^ (bitSize - 1) ∨ (2 : Int) ^ (bitSize - 1) ≤ i then
    .error scanOverflow
  else .ok i

/-- The method `(*ss).scanInt` for the verb `%d`: blanks, an optional sign,
digits, then `intOfToken`. -/
def scanInt (bitSize : Nat) (input : List Char) : Except Error (Int × List Char) :=
  match SkipSpace input with
  | .error e => .error e
  | .ok [] => .error scanEOF
  | .ok (c :: cs) =>
    match scanNumber (if c = '+' ∨ c = '-' then cs else c :: cs) with
    | .error e => .error e
    | .ok (tok, rest) =>
      match intOfToken bitSize (c == '-') tok with
      | .error e => .error e
      | .ok i => .ok (i, rest)

/-- The method `(*ss).scanOne` for the verb `%d`, by the type of the operand
(`intBits` is 64). -/
def scanOne (arg : ScanArg) (input : List Char) : Except Error (Int × List Char) :=
  match arg with
  | .int => scanInt 64 input
  | .uint8 => scanUint 8 input
  | .uint32 => scanUint 32 input

/-- One verb `%d` in `doScanf`: `SkipSpace`, then `scanOne` on the operand. -/
def scanVerb (arg : ScanArg) (input : List Char) : Except Error (Int × List Char) :=
  match SkipSpace input with
  | .error e => .error e
  | .ok input1 => scanOne arg input1

/-- The method `(*ss).doScanf` on the fragment the package uses: a format made
of literal characters other than blanks, and of verbs `%d`.  The flag tells
whether the character before was the `%` of a verb.  Literal text has to match
the input character by character (`advance`); a verb skips blanks and scans one
operand.  Returns the values stored through the operands, in order; input left
after the format is not looked at. -/
def doScanf : List Char → Bool → List Char → List ScanArg → Except Error (List Int)
  | [], false, _, _ => .ok []
  | [], true, _, _ => .error scanBadFormat
  | c :: fmt, false, input, args =>
    if c = '%' then doScanf fmt true input args
    else if isSpace c then .error scanBadFormat
    else
      match input with
      | [] => .error scanUnexpectedEOF
      | r :: input' =>
        if c = r then doScanf fmt false input' args else .error scanNoMatch
  | v :: fmt, true, input, args =>
    if v = 'd' then
      match args with
      | [] => .error scanBadFormat
      | a :: args' =>
        match scanVerb a input with
        | .error e => .error e
        | .ok (x, input2) =>
          match doScanf fmt false input2 args' with
          | .error e => .error e
          | .ok xs => .ok (x :: xs)
    else .error scanBadFormat

/-- The function `fmt.Sscanf(str, format, a...)`, reduced to its error and to
the values it stores. -/
def Sscanf (str format : String) (a : List ScanArg) : Except Error (List Int) :=
  doScanf format.data false str.data a

/-! ## `encoding/base64`, `RawStdEncoding` -/

/-- The alphabet `encodeStd`. -/
def encodeStd : List Char :=
  "ABCDEFGHIJKLMNOPQRSTUVWXYZabcdefghijklmnopqrstuvwxyz0123456789+/".data

/-- The table `enc.encode`: the character of a 6-bit value. -/
def encodeTable (i : Nat) : Char := encodeStd.getD i 'A'

/-- The table `enc.decodeMap`: the 6-bit value of a character of the alphabet,
`0xff` for every other character. -/
def decodeMap (c : Char) : Nat :=
  if encodeStd.indexOf c < 64 then encodeStd.indexOf c else 0xff

/-- The method `RawStdEncoding.EncodeToString`: four characters for every three
bytes, two or three characters for a last group of one or two bytes, no
padding. -/
def EncodeToString : List Byte → List Char
  | b0 :: b1 :: b2 :: rest =>
    let val := b0.val <<< 16 ||| b1.val <<< 8 ||| b2.val
    encodeTable (val >>> 18 &&& 0x3F) :: encodeTable (val >>> 12 &&& 0x3F) ::
      encodeTable (val >>> 6 &&& 0x3F) :: encodeTable (val &&& 0x3F) ::
      EncodeToString rest
  | [b0, b1] =>
    let val := b0.val <<< 16 ||| b1.val <<< 8
    [encodeTable (val >>> 18 &&& 0x3F), encodeTable (val >>> 12 &&& 0x3F),
      encodeTable (val >>> 6 &&& 0x3F)]
  | [b0] =>
    let val := b0.val <<< 16
    [encodeTable (val >>> 18 &&& 0x3F), encodeTable (val >>> 12 &&& 0x3F)]
  | [] => []

/-- The end of `decodeQuantum`: the `dlen - 1` bytes held by `dlen` 6-bit
values (`dbuf` is filled with zeros up to four values); the encoding is not
strict, so bits left over are dropped. -/
def quantumBytes (dbuf : List Nat) (dlen : Nat) : List Byte :=
  let val := dbuf.getD 0 0 <<< 18 ||| dbuf.getD 1 0 <<< 12 |||
    dbuf.getD 2 0 <<< 6 ||| dbuf.getD 3 0
  ([Fin.ofNat (val >>> 16), Fin.ofNat (val >>> 8), Fin.ofNat val] : List Byte).take (dlen - 1)

/-- The loop of `Decode` over `decodeQuantum`, one character at a time: `j`
values of the current quantum are in `dbuf`, `si` characters have been read.
A character of the alphabet is stored, `\n` and `\r` are skipped, any other
character (the padding `=` included, `RawStdEncoding` has none) is
`CorruptInputError(si)`; at the end of the input a quantum of one value is
`CorruptInputError(si - 1)`. -/
def decodeFrom : Nat → List Nat → Nat → List Char → Except Error (List Byte)
  | j, dbuf, si, [] =>
    if j = 0 then .ok []
    else if j = 1 then .error (base64Corrupt (si - j))
    else .ok (quantumBytes dbuf j)
  | j, dbuf, si, c :: cs =>
    if decodeMap c ≠ 0xff then
      if j = 3 then
        match decodeFrom 0 [] (si + 1) cs with
        | .error e => .error e
        | .ok rest => .ok (quantumBytes (dbuf ++ [decodeMap c]) 4 ++ rest)
      else decodeFrom (j + 1) (dbuf ++ [decodeMap c]) (si + 1) cs
    else if c = '\n' ∨ c = '\r' then decodeFrom j dbuf (si + 1) cs
    else .error (base64Corrupt si)

/-- The method `RawStdEncoding.DecodeString`, reduced to the bytes it returns
when there is no error, and to its error otherwise (the package drops the
bytes decoded before an error).  The fast paths of `Decode` over 8 and 4
characters give what `decodeQuantum` gives, and are not modelled apart. -/
def DecodeString (s : List Char) : Except Error (List Byte) :=
  decodeFrom 0 [] 0 s

/-! ## The key derivation primitive and `argon2.go`, lines 82-211 -/

/-- The package `golang.org/x/crypto/argon2`: the two entry points `IDKey` and
`Key`, called with `(password, salt, time, memory, threads, keyLen)`, as total
and deterministic functions. -/
structure Argon2Primitive where
  IDKey : List Byte → List Byte → Nat → Nat → Nat → Nat → List Byte
  Key : List Byte → List Byte → Nat → Nat → Nat → Nat → List Byte

/-- The constant `argon2.Version = 0x13`. -/
def argon2Version : Nat := 0x13

/-- The contract of the primitive: it returns exactly `keyLen` bytes. -/
def Argon2Primitive.ReturnsKeyLen (kdf : Argon2Primitive) : Prop :=
  ∀ password salt time memory threads keyLen,
    (kdf.IDKey password salt time memory threads keyLen).length = keyLen ∧
    (kdf.Key password salt time memory threads keyLen).length = keyLen

/-- The conversion `[]byte(password)`: the UTF-8 bytes of the string. -/
def stringBytes (s : String) : List Byte :=
  s.data.flatMap fun c => (String.utf8EncodeChar c).map fun b => b.val

/-- The function `HashArgon2Raw`. -/
def HashArgon2Raw (kdf : Argon2Primitive) (clear salt : List Byte) (p : Argon2Params) :
    Except Error (List Byte) :=
  match argon2AlgorithmToString p.Algorithm with
  | .error err => .error err
  | .ok alg =>
    if alg = "argon2id" then
      .ok (kdf.IDKey clear salt p.Time p.Memory p.Threads p.KeyLength)
    else
      .ok (kdf.Key clear salt p.Time p.Memory p.Threads p.KeyLength)

/-- The constant `argonEncFormat`. -/
def argonEncFormat : String := "$%s$v=%d$m=%d,t=%d,p=%d$%s$%s"

/-- The function `EncodeArgon2`. -/
def EncodeArgon2 (hash salt : List Byte) (p : Argon2Params) : Except Error String :=
  match argon2AlgorithmToString p.Algorithm with
  | .error err => .error err
  | .ok encAlg =>
    let b64Hash := EncodeToString hash
    let b64Salt := EncodeToString salt
    .ok (String.mk (Sprintf argonEncFormat.data
      [.str encAlg.data, .uint argon2Version, .uint p.Memory, .uint p.Time,
        .uint p.Threads, .str b64Salt, .str b64Hash]))

/-- The function `DecodeArgon2`; the result is `(hash, salt, params)`.  A
field of `p` that `Sscanf` does not store keeps the zero of `var p`. -/
def DecodeArgon2 (enc : String) : Except Error (List Byte × List Byte × Argon2Params) :=
  let vals := stringsSplit '$' enc.data
  if vals.length ≠ 6 then .error ErrEncodingFormat
  else
    match argon2StringToAlgorithm (String.mk (vals.getD 1 [])) with
    | .error err => .error err
    | .ok alg =>
      match Sscanf (String.mk (vals.getD 2 [])) "v=%d" [.int] with
      | .error err => .error err
      | .ok version =>
        match Sscanf (String.mk (vals.getD 3 [])) "m=%d,t=%d,p=%d" [.uint32, .uint32, .uint8] with
        | .error err => .error err
        | .ok cost =>
          match DecodeString (vals.getD 4 []) with
          | .error err => .error err
          | .ok salt =>
            match DecodeString (vals.getD 5 []) with
            | .error err => .error err
            | .ok hash =>
              .ok (hash, salt,
                { Algorithm := alg
                  SaltLength := salt.length % 2 ^ 32
                  KeyLength := hash.length % 2 ^ 32
                  Time := (cost.getD 1 0).toNat
                  Memory := (cost.getD 0 0).toNat
                  Threads := (cost.getD 2 0).toNat
                  Version := version.getD 0 0 })

/-- The function `VerifyArgon2`; the result is the pair `(bool, error)`. -/
def VerifyArgon2 (kdf : Argon2Primitive) (password encodedHash : String) :
    Bool × Option Error :=
  match DecodeArgon2 encodedHash with
  | .error err => (false, some err)
  | .ok (decodedHash, decodedSalt, p) =>
    if p.Version ≠ (argon2Version : Int) then (false, some ErrVersionMismatch)
    else
      match HashArgon2Raw kdf (stringBytes password) decodedSalt p with
      | .error _ => (false, none)
      | .ok hash => if hash = decodedHash then (true, none) else (false, none)

/-! ## `salt.go` and `HashArgon2` (`argon2.go`, lines 52-80) -/

/-- The function `crypto/rand.Read` as a step on the state `σ` of the random
source: asked to fill a slice of `n` bytes, it returns the bytes it wrote, its
error (`none` for `nil`) and the next state of the source. -/
abbrev RandRead (σ : Type) := σ → Nat → List Byte × Option Error × σ

/-- The slice `buf` after `written` has been written from its start on: a Go
slice keeps its length whatever is written into it. -/
def overwrite (buf written : List Byte) : List Byte :=
  written.take buf.length ++ buf.drop written.length

/-- The function `SecureSalt`; the result comes with the next state of the
random source. -/
def SecureSalt {σ : Type} (read : RandRead σ) (st : σ) (length : Nat) :
    Except Error (List Byte) × σ :=
  let salt := List.replicate length (0 : Byte)
  match read st salt.length with
  | (written, err, st') =>
    match err with
    | some e => (.error e, st')
    | none => (.ok (overwrite salt written), st')

/-- The function `HashArgon2`; the result is `(key, salt)` and comes with the
next state of the random source. -/
def HashArgon2 {σ : Type} (kdf : Argon2Primitive) (read : RandRead σ) (st : σ)
    (password : String) (p : Argon2Params) : Except Error (List Byte × List Byte) × σ :=
  match SecureSalt read st p.SaltLength with
  | (.error err, st') => (.error err, st')
  | (.ok salt, st') =>
    match argon2AlgorithmToString p.Algorithm with
    | .error err => (.error err, st')
    | .ok alg =>
      if alg = "argon2id" then
        (.ok (kdf.IDKey (stringBytes password) salt p.Time p.Memory p.Threads p.KeyLength, salt),
          st')
      else
        (.ok (kdf.Key (stringBytes password) salt p.Time p.Memory p.Threads p.KeyLength, salt),
          st')

/-! ## Auxiliary definitions used in the statements -/

/-- What follows a number in the input: nothing, or a character that is not a
digit. -/
def EndsNumber : List Char → Prop
  | [] => True
  | c :: _ => isDecimalDigit c = false

/-- The text that `EncodeArgon2` builds from the name of the algorithm, the
three cost parameters, the salt and the hash. -/
def encodedText (name : List Char) (m t p : Nat) (salt hash : List Byte) : List Char :=
  '$' :: (name ++ '$' :: ('v' :: '=' :: formatDecimal argon2Version ++
    '$' :: ('m' :: '=' :: formatDecimal m ++ ',' :: 't' :: '=' :: formatDecimal t ++
      ',' :: 'p' :: '=' :: formatDecimal p ++
        '$' :: (EncodeToString salt ++ '$' :: EncodeToString hash))))

/-- Blanks that `fmt` skips in front of a number: characters of the table
`space`, the newline excepted. -/
def Blanks (ws : List Char) : Prop := ∀ c ∈ ws, isSpace c = true ∧ c ≠ '\n'

/-- The text does not start with a character of the table `space`. -/
def NoBlankHead : List Char → Prop
  | [] => True
  | c :: _ => isSpace c = false

/-- One or more decimal digits. -/
def Digits (ds : List Char) : Prop := ds ≠ [] ∧ ∀ c ∈ ds, isDecimalDigit c = true

/-- The text `s` starts with an unsigned decimal integer of value `n` below
`2 ^ bitSize`, and `rest` follows it: blanks, then one or more digits, as many
as there are. -/
def ScansUint (bitSize : Nat) (s rest : List Char) (n : Nat) : Prop :=
  ∃ ws ds, s = ws ++ (ds ++ rest) ∧ Blanks ws ∧ Digits ds ∧ EndsNumber rest ∧
    parseDecimal 0 ds = n ∧ n < 2 ^ bitSize

/-- The text `s` starts with a decimal integer of value `i` that fits 64 bits,
and `rest` follows it: blanks, an optional sign `+` or `-`, then one or more
digits, as many as there are. -/
def ScansInt (s rest : List Char) (i : Int) : Prop :=
  ∃ ws sign ds, s = ws ++ (sign ++ (ds ++ rest)) ∧ Blanks ws ∧
    ((sign = [] ∨ sign = ['+']) ∧ i = (parseDecimal 0 ds : Int) ∨
      sign = ['-'] ∧ i = -(parseDecimal 0 ds : Int)) ∧
    Digits ds ∧ EndsNumber rest ∧ -(2 : Int) ^ 63 ≤ i ∧ i < (2 : Int) ^ 63

/-- The errors of `fmt.Sscanf`. -/
def Error.IsScan (e : Error) : Prop :=
  e = scanUnexpectedEOF ∨ e = scanEOF ∨ e = scanNoMatch ∨ e = scanUnexpectedNewline ∨
    e = scanExpectedInteger ∨ e = scanRange ∨ e = scanOverflow

/-- The form `v=<integer>` as `fmt.Sscanf` reads it with the format `v=%d`:
the two characters `v=`, then an integer in the sense of `ScansInt`, then any
text. -/
def VersionForm (seg : List Char) : Prop :=
  ∃ s rest i, seg = 'v' :: '=' :: s ∧ ScansInt s rest i

/-- The form `m=<integer>,t=<integer>,p=<integer>` as `fmt.Sscanf` reads it
with the format `m=%d,t=%d,p=%d`: `m=` and an integer below `2 ^ 32`, `,t=`
right after its digits and an integer below `2 ^ 32`, `,p=` right after its
digits and an integer below `2 ^ 8`, then any text. -/
def CostForm (seg : List Char) : Prop :=
  ∃ s1 s2 s3 rest m t p, seg = 'm' :: '=' :: s1 ∧
    ScansUint 32 s1 (',' :: 't' :: '=' :: s2) m ∧
    ScansUint 32 s2 (',' :: 'p' :: '=' :: s3) t ∧
    ScansUint 8 s3 rest p

/-- A stand-in for one entry point of the primitive, used to instantiate the
theorems at concrete inputs: `keyLen` bytes, byte `i` being the sum of `tag`,
of all the bytes of the password and of the salt, of the three cost parameters
and of `i`, modulo 256. -/
def sumKey (tag : Nat) (password salt : List Byte) (time memory threads keyLen : Nat) :
    List Byte :=
  (List.range keyLen).map fun i =>
    Fin.ofNat (tag + (password.map Fin.val).sum + (salt.map Fin.val).sum +
      time + memory + threads + i)

/-- A stand-in for the primitive: `sumKey 0` for `IDKey`, `sumKey 1` for `Key`. -/
def sumPrimitive : Argon2Primitive := ⟨sumKey 0, sumKey 1⟩

/-- The parameters of `TestArgon2idHashing` (`argon2_test.go`); `Version` is
left at the zero value there. -/
def testParams : Argon2Params :=
  { Algorithm := AlgorithmArgon2id, SaltLength := 12, KeyLength := 32, Time := 3,
    Memory := 12 * 1024, Threads := 4, Version := 0 }

/-- Membership in the base64 alphabet `encodeStd`. -/
def inAlphabet (c : Char) : Bool := encodeStd.contains c

/-- The texts that `RawStdEncoding.DecodeString` accepts: every character is
in the alphabet or is `\n` or `\r`, and the number of characters of the
alphabet is not 1 modulo 4. -/
def Base64Form (seg : List Char) : Prop :=
  (∀ c ∈ seg, inAlphabet c = true ∨ c = '\n' ∨ c = '\r') ∧
    (seg.filter inAlphabet).length % 4 ≠ 1

instance (seg : List Char) : Decidable (Base64Form seg) := by
  unfold Base64Form; infer_instance

/-- The password made of `n` letters `a`. -/
def lettersA (n : Nat) : String := String.mk (List.replicate n 'a')

/-- The parameters of the package's test with a key of one byte. -/
def oneByteKeyParams : Argon2Params := { testParams with KeyLength := 1 }

/-- A salt of twelve bytes, the SaltLength of the package's test. -/
def testSalt : List Byte := [1, 2, 3, 4, 5, 6, 7, 8, 9, 10, 11, 12]

/-- A stand-in for the random source, used to instantiate the theorems: the
state is a counter, and `n` bytes are the counter and its successors modulo
256. -/
def counterRead : RandRead Nat := fun st n =>
  ((List.range n).map fun i => Fin.ofNat (st + i), none, st + n)

/-- A stand-in for a random source that fails: it writes nothing and returns
an error. -/
def failingRead : RandRead Nat := fun st _ => ([], some (randRead 5), st)

/-! # Properties

Facts about the library models first, then the claims. -/

/-! ## `strings.Split` -/

theorem stringsSplit_ne_nil (sep : Char) (s : List Char) : stringsSplit sep s ≠ [] := by
  cases s with
  | nil => simp [stringsSplit]
  | cons c cs =>
    simp only [stringsSplit]
    split
    · simp
    · split <;> simp

theorem stringsSplit_length (sep : Char) (s : List Char) :
    (stringsSplit sep s).length = s.count sep + 1 := by
  induction s with
  | nil => simp [stringsSplit]
  | cons c cs ih =>
    simp only [stringsSplit]
    by_cases h : c = sep
    · subst h; simp [ih]
    · have hne := stringsSplit_ne_nil sep cs
      rw [if_neg h, List.count_cons_of_ne (Ne.symm h)]
      split
      · contradiction
      · rename_i seg segs heq
        rw [heq] at ih
        simpa using ih

theorem stringsSplit_of_not_mem (sep : Char) (s : List Char) (h : sep ∉ s) :
    stringsSplit sep s = [s] := by
  induction s with
  | nil => simp [stringsSplit]
  | cons c cs ih =>
    have hc : ¬ c = sep := fun e => h (by simp [e])
    have hcs : sep ∉ cs := fun e => h (by simp [e])
    simp [stringsSplit, hc, ih hcs]

theorem stringsSplit_append (sep : Char) (a b : List Char) (h : sep ∉ a) :
    stringsSplit sep (a ++ sep :: b) = a :: stringsSplit sep b := by
  induction a with
  | nil => simp [stringsSplit]
  | cons c cs ih =>
    have hc : ¬ c = sep := fun e => h (by simp [e])
    have hcs : sep ∉ cs := fun e => h (by simp [e])
    simp [stringsSplit, hc, ih hcs]

/-! ## Decimal numbers -/

theorem digitValue_digitChar (d : Nat) (h : d < 10) : digitValue (digitChar d) = d := by
  interval_cases d <;> rfl

theorem isDecimalDigit_digitChar (d : Nat) (h : d < 10) : isDecimalDigit (digitChar d) = true := by
  interval_cases d <;> rfl

theorem parseDecimal_append (acc : Nat) (xs : List Char) (c : Char) :
    parseDecimal acc (xs ++ [c]) = parseDecimal acc xs * 10 + digitValue c := by
  induction xs generalizing acc with
  | nil => simp [parseDecimal]
  | cons x xs ih => simp [parseDecimal, ih]

theorem parseDecimal_decimalDigitsRev (fuel n : Nat) (h : n < fuel) :
    parseDecimal 0 (decimalDigitsRev fuel n).reverse = n := by
  induction fuel generalizing n with
  | zero => omega
  | succ fuel ih =>
    simp only [decimalDigitsRev]
    by_cases hn : n < 10
    · simp [hn, parseDecimal, digitValue_digitChar n hn]
    · rw [if_neg hn, List.reverse_cons, parseDecimal_append, ih (n / 10) (by omega),
        digitValue_digitChar _ (Nat.mod_lt _ (by decide))]
      omega

theorem parseDecimal_formatDecimal (n : Nat) : parseDecimal 0 (formatDecimal n) = n :=
  parseDecimal_decimalDigitsRev (n + 1) n (Nat.lt_succ_self n)

theorem decimalDigitsRev_digits (fuel n : Nat) :
    ∀ c ∈ decimalDigitsRev fuel n, isDecimalDigit c = true := by
  induction fuel generalizing n with
  | zero => simp [decimalDigitsRev]
  | succ fuel ih =>
    intro c hc
    simp only [decimalDigitsRev] at hc
    by_cases hn : n < 10
    · simp only [hn, if_true, List.mem_singleton] at hc
      subst hc; exact isDecimalDigit_digitChar n hn
    · rw [if_neg hn, List.mem_cons] at hc
      rcases hc with hc | hc
      · subst hc; exact isDecimalDigit_digitChar _ (Nat.mod_lt _ (by decide))
      · exact ih _ c hc

theorem formatDecimal_digits (n : Nat) : ∀ c ∈ formatDecimal n, isDecimalDigit c = true := by
  intro c hc
  exact decimalDigitsRev_digits (n + 1) n c (by simpa [formatDecimal] using hc)

theorem formatDecimal_ne_nil (n : Nat) : formatDecimal n ≠ [] := by
  simp only [formatDecimal, decimalDigitsRev]
  split <;> simp

/-! ## base64 -/

theorem decodeMap_encodeTable (i : Nat) (h : i < 64) : decodeMap (encodeTable i) = i := by
  interval_cases i <;> rfl

theorem and_0x3F (x : Nat) : x &&& 0x3F = x % 64 := by
  have h := Nat.and_pow_two_sub_one_eq_mod x 6
  simpa using h

theorem or_eq_add (x b i : Nat) (hx : 2 ^ i ∣ x) (hb : b < 2 ^ i) : x ||| b = x + b := by
  obtain ⟨k, rfl⟩ := hx
  exact (Nat.mul_add_lt_is_or hb k).symm

theorem byteOfNat_val (x : Nat) : ((Fin.ofNat x : Byte) : Nat) = x % 256 := rfl

theorem bytes_or (b0 b1 b2 : Nat) (h1 : b1 < 256) (h2 : b2 < 256) :
    b0 <<< 16 ||| b1 <<< 8 ||| b2 = b0 * 65536 + b1 * 256 + b2 := by
  rw [Nat.shiftLeft_eq, Nat.shiftLeft_eq,
    or_eq_add (b0 * 2 ^ 16) (b1 * 2 ^ 8) 16 (by omega) (by omega),
    or_eq_add (b0 * 2 ^ 16 + b1 * 2 ^ 8) b2 8 (by omega) (by omega)]

theorem sextets_or (s0 s1 s2 s3 : Nat) (h1 : s1 < 64) (h2 : s2 < 64) (h3 : s3 < 64) :
    s0 <<< 18 ||| s1 <<< 12 ||| s2 <<< 6 ||| s3 = s0 * 262144 + s1 * 4096 + s2 * 64 + s3 := by
  rw [Nat.shiftLeft_eq, Nat.shiftLeft_eq, Nat.shiftLeft_eq,
    or_eq_add (s0 * 2 ^ 18) (s1 * 2 ^ 12) 18 (by omega) (by omega),
    or_eq_add (s0 * 2 ^ 18 + s1 * 2 ^ 12) (s2 * 2 ^ 6) 12 (by omega) (by omega),
    or_eq_add (s0 * 2 ^ 18 + s1 * 2 ^ 12 + s2 * 2 ^ 6) s3 6 (by omega) (by omega)]

theorem quantumBytes_eq (s0 s1 s2 s3 dlen : Nat) (h1 : s1 < 64) (h2 : s2 < 64) (h3 : s3 < 64) :
    quantumBytes [s0, s1, s2, s3] dlen =
      ([Fin.ofNat ((s0 * 262144 + s1 * 4096 + s2 * 64 + s3) / 65536),
        Fin.ofNat ((s0 * 262144 + s1 * 4096 + s2 * 64 + s3) / 256),
        Fin.ofNat (s0 * 262144 + s1 * 4096 + s2 * 64 + s3)] : List Byte).take (dlen - 1) := by
  simp only [quantumBytes, List.getD_cons_zero, List.getD_cons_succ]
  rw [sextets_or s0 s1 s2 s3 h1 h2 h3, Nat.shiftRight_eq_div_pow, Nat.shiftRight_eq_div_pow]

theorem quantumBytes_four (b0 b1 b2 : Byte) :
    quantumBytes
      [(b0.val <<< 16 ||| b1.val <<< 8 ||| b2.val) >>> 18 &&& 0x3F,
       (b0.val <<< 16 ||| b1.val <<< 8 ||| b2.val) >>> 12 &&& 0x3F,
       (b0.val <<< 16 ||| b1.val <<< 8 ||| b2.val) >>> 6 &&& 0x3F,
       (b0.val <<< 16 ||| b1.val <<< 8 ||| b2.val) &&& 0x3F] 4 = [b0, b1, b2] := by
  have h0 := b0.isLt
  have h1 := b1.isLt
  have h2 := b2.isLt
  rw [bytes_or _ _ _ h1 h2]
  simp only [and_0x3F, Nat.shiftRight_eq_div_pow]
  rw [quantumBytes_eq _ _ _ _ _ (Nat.mod_lt _ (by decide)) (Nat.mod_lt _ (by decide))
    (Nat.mod_lt _ (by decide))]
  simp only [List.take, Nat.reduceSub, List.cons.injEq, and_true]
  refine ⟨?_, ?_, ?_⟩ <;> apply Fin.ext <;> rw [byteOfNat_val] <;> omega

theorem quantumBytes_three (b0 b1 : Byte) :
    quantumBytes
      [(b0.val <<< 16 ||| b1.val <<< 8) >>> 18 &&& 0x3F,
       (b0.val <<< 16 ||| b1.val <<< 8) >>> 12 &&& 0x3F,
       (b0.val <<< 16 ||| b1.val <<< 8) >>> 6 &&& 0x3F] 3 = [b0, b1] := by
  have h0 := b0.isLt
  have h1 := b1.isLt
  have hv : b0.val <<< 16 ||| b1.val <<< 8 = b0.val * 65536 + b1.val * 256 := by
    rw [Nat.shiftLeft_eq, Nat.shiftLeft_eq,
      or_eq_add (b0.val * 2 ^ 16) (b1.val * 2 ^ 8) 16 (by omega) (by omega)]
  rw [hv]
  simp only [and_0x3F, Nat.shiftRight_eq_div_pow, quantumBytes, List.getD_cons_zero,
    List.getD_cons_succ, List.getD_nil]
  rw [sextets_or _ _ _ 0 (Nat.mod_lt _ (by decide)) (Nat.mod_lt _ (by decide)) (by decide)]
  simp only [List.take, Nat.reduceSub, List.cons.injEq, and_true]
  refine ⟨?_, ?_⟩ <;> apply Fin.ext <;> rw [byteOfNat_val] <;> omega

theorem quantumBytes_two (b0 : Byte) :
    quantumBytes [(b0.val <<< 16) >>> 18 &&& 0x3F, (b0.val <<< 16) >>> 12 &&& 0x3F] 2 = [b0] := by
  have h0 := b0.isLt
  simp only [and_0x3F, Nat.shiftRight_eq_div_pow, Nat.shiftLeft_eq b0.val, quantumBytes,
    List.getD_cons_zero, List.getD_cons_succ, List.getD_nil]
  rw [sextets_or _ _ 0 0 (Nat.mod_lt _ (by decide)) (by decide) (by decide)]
  simp only [List.take, Nat.reduceSub, List.cons.injEq, and_true]
  apply Fin.ext
  rw [byteOfNat_val]
  omega

theorem decodeMap_sextet (x : Nat) : decodeMap (encodeTable (x &&& 0x3F)) = x &&& 0x3F :=
  decodeMap_encodeTable _ (by rw [and_0x3F]; exact Nat.mod_lt _ (by decide))

theorem sextet_ne_0xff (x : Nat) : x &&& 0x3F ≠ 0xff := by
  rw [and_0x3F]; omega

theorem decodeFrom_EncodeToString (bs : List Byte) (si : Nat) :
    decodeFrom 0 [] si (EncodeToString bs) = .ok bs := by
  induction bs using EncodeToString.induct generalizing si with
  | case1 b0 b1 b2 rest ih =>
    simp only [EncodeToString, decodeFrom, decodeMap_sextet, ne_eq, sextet_ne_0xff,
      not_false_eq_true, if_true, List.nil_append, List.cons_append, ih]
    simp [quantumBytes_four]
  | case2 b0 b1 =>
    simp only [EncodeToString, decodeFrom, decodeMap_sextet, ne_eq, sextet_ne_0xff,
      not_false_eq_true, if_true, List.nil_append, List.cons_append]
    simp [quantumBytes_three]
  | case3 b0 =>
    simp only [EncodeToString, decodeFrom, decodeMap_sextet, ne_eq, sextet_ne_0xff,
      not_false_eq_true, if_true, List.nil_append, List.cons_append]
    simp [quantumBytes_two]
  | case4 => simp [EncodeToString, decodeFrom]

theorem DecodeString_EncodeToString (bs : List Byte) :
    DecodeString (EncodeToString bs) = .ok bs :=
  decodeFrom_EncodeToString bs 0

theorem encodeTable_ne_delims (i : Nat) (h : i < 64) :
    encodeTable i ≠ '$' ∧ encodeTable i ≠ '=' := by
  interval_cases i <;> decide

theorem EncodeToString_alphabet (bs : List Byte) :
    ∀ c ∈ EncodeToString bs, c ≠ '$' ∧ c ≠ '=' := by
  have hs : ∀ x : Nat, encodeTable (x &&& 0x3F) ≠ '$' ∧ encodeTable (x &&& 0x3F) ≠ '=' :=
    fun x => encodeTable_ne_delims _ (by rw [and_0x3F]; exact Nat.mod_lt _ (by decide))
  induction bs using EncodeToString.induct with
  | case1 b0 b1 b2 rest ih =>
    intro c hc
    simp only [EncodeToString, List.mem_cons] at hc
    rcases hc with hc | hc | hc | hc | hc
    · subst hc; exact hs _
    · subst hc; exact hs _
    · subst hc; exact hs _
    · subst hc; exact hs _
    · exact ih c hc
  | case2 b0 b1 =>
    intro c hc
    simp only [EncodeToString, List.mem_cons, List.not_mem_nil, or_false] at hc
    rcases hc with hc | hc | hc
    · subst hc; exact hs _
    · subst hc; exact hs _
    · subst hc; exact hs _
  | case3 b0 =>
    intro c hc
    simp only [EncodeToString, List.mem_cons, List.not_mem_nil, or_false] at hc
    rcases hc with hc | hc
    · subst hc; exact hs _
    · subst hc; exact hs _
  | case4 => simp [EncodeToString]

/-! ## `fmt.Sprintf` and `fmt.Sscanf` on the formats of the package -/

theorem Sprintf_argonEncFormat (alg b64Salt b64Hash : List Char) (v m t p : Nat) :
    Sprintf argonEncFormat.data
      [.str alg, .uint v, .uint m, .uint t, .uint p, .str b64Salt, .str b64Hash] =
    '$' :: (alg ++ '$' :: ('v' :: '=' :: formatDecimal v ++
      '$' :: ('m' :: '=' :: formatDecimal m ++ ',' :: 't' :: '=' :: formatDecimal t ++
        ',' :: 'p' :: '=' :: formatDecimal p ++ '$' :: (b64Salt ++ '$' :: b64Hash)))) := by
  simp [Sprintf, argonEncFormat]

theorem isSpace_of_digit (c : Char) (h : isDecimalDigit c = true) : isSpace c = false := by
  simp only [isDecimalDigit, Bool.and_eq_true, decide_eq_true_eq] at h
  simp only [isSpace, Bool.or_eq_false_iff, Bool.and_eq_false_iff, decide_eq_false_iff_not,
    beq_eq_false_iff_ne, ne_eq]
  omega

theorem ne_of_digit (c d : Char) (h : isDecimalDigit c = true) (hd : isDecimalDigit d = false) :
    c ≠ d := by
  intro e; rw [e, hd] at h; exact Bool.noConfusion h

theorem SkipSpace_digit (c : Char) (cs : List Char) (h : isDecimalDigit c = true) :
    SkipSpace (c :: cs) = .ok (c :: cs) := by
  simp [SkipSpace, ne_of_digit c '\n' h rfl, isSpace_of_digit c h]

theorem takeWhile_digits (ds rest : List Char) (hds : ∀ c ∈ ds, isDecimalDigit c = true)
    (hrest : EndsNumber rest) :
    (ds ++ rest).takeWhile isDecimalDigit = ds ∧ (ds ++ rest).dropWhile isDecimalDigit = rest := by
  induction ds with
  | nil =>
    cases rest with
    | nil => simp
    | cons c cs => simp [EndsNumber] at hrest; simp [List.takeWhile, List.dropWhile, hrest]
  | cons d ds ih =>
    have hd := hds d (by simp)
    have := ih (fun c hc => hds c (by simp [hc]))
    simp [List.takeWhile, List.dropWhile, hd, this]

theorem scanNumber_digits (d : Char) (ds rest : List Char)
    (hds : ∀ c ∈ d :: ds, isDecimalDigit c = true) (hrest : EndsNumber rest) :
    scanNumber (d :: ds ++ rest) = .ok (d :: ds, rest) := by
  have hd := hds d (by simp)
  have := takeWhile_digits ds rest (fun c hc => hds c (by simp [hc])) hrest
  simp [scanNumber, hd, this]

theorem scanUint_formatDecimal (bitSize n : Nat) (rest : List Char) (hb : bitSize ≤ 64)
    (hn : n < 2 ^ bitSize) (hrest : EndsNumber rest) :
    scanUint bitSize (formatDecimal n ++ rest) = .ok ((n : Int), rest) := by
  have hpd := parseDecimal_formatDecimal n
  have hdig := formatDecimal_digits n
  have hne := formatDecimal_ne_nil n
  have h64 : n < 2 ^ 64 := lt_of_lt_of_le hn (Nat.pow_le_pow_right (by decide) hb)
  cases hf : formatDecimal n with
  | nil => exact absurd hf hne
  | cons d ds =>
    rw [hf] at hpd hdig
    have hd := hdig d (by simp)
    simp only [scanUint, List.cons_append, SkipSpace_digit d _ hd]
    rw [← List.cons_append, scanNumber_digits d ds rest hdig hrest]
    simp only [hpd]
    rw [if_neg (by omega), if_neg (by omega)]

theorem intOfToken_of_range (neg : Bool) (digits : List Char) (i : Int)
    (hi : i = if neg then -(parseDecimal 0 digits : Int) else (parseDecimal 0 digits : Int))
    (hlo : -(2 : Int) ^ 63 ≤ i) (hhi : i < (2 : Int) ^ 63) :
    intOfToken 64 neg digits = .ok i := by
  have h1 : ¬ (i < -(2 : Int) ^ 63 ∨ (2 : Int) ^ 63 ≤ i) := by omega
  have h2 : ¬ (i < -(2 : Int) ^ (64 - 1) ∨ (2 : Int) ^ (64 - 1) ≤ i) := by
    simp only [Nat.reduceSub]; omega
  simp only [intOfToken, ← hi]
  rw [if_neg h1, if_neg h2]

theorem intOfToken_eq_ok (bitSize : Nat) (neg : Bool) (digits : List Char) (i : Int)
    (h : intOfToken bitSize neg digits = .ok i) :
    (i = if neg then -(parseDecimal 0 digits : Int) else (parseDecimal 0 digits : Int)) ∧
      -(2 : Int) ^ 63 ≤ i ∧ i < (2 : Int) ^ 63 := by
  simp only [intOfToken] at h
  generalize (if neg = true then -(parseDecimal 0 digits : Int)
    else (parseDecimal 0 digits : Int)) = j at h ⊢
  by_cases h1 : j < -(2 : Int) ^ 63 ∨ (2 : Int) ^ 63 ≤ j
  · rw [if_pos h1] at h; cases h
  · rw [if_neg h1] at h
    by_cases h2 : j < -(2 : Int) ^ (bitSize - 1) ∨ (2 : Int) ^ (bitSize - 1) ≤ j
    · rw [if_pos h2] at h; cases h
    · rw [if_neg h2] at h
      simp only [Except.ok.injEq] at h
      subst h
      exact ⟨rfl, by omega, by omega⟩

theorem intOfToken_error (bitSize : Nat) (neg : Bool) (digits : List Char) (e : Error)
    (h : intOfToken bitSize neg digits = .error e) : e = scanRange ∨ e = scanOverflow := by
  simp only [intOfToken] at h
  generalize (if neg = true then -(parseDecimal 0 digits : Int)
    else (parseDecimal 0 digits : Int)) = j at h
  by_cases h1 : j < -(2 : Int) ^ 63 ∨ (2 : Int) ^ 63 ≤ j
  · rw [if_pos h1] at h; cases h; simp
  · rw [if_neg h1] at h
    by_cases h2 : j < -(2 : Int) ^ (bitSize - 1) ∨ (2 : Int) ^ (bitSize - 1) ≤ j
    · rw [if_pos h2] at h; cases h; simp
    · rw [if_neg h2] at h; cases h

theorem scanInt_formatDecimal (n : Nat) (rest : List Char)
    (hn : n < 2 ^ 63) (hrest : EndsNumber rest) :
    scanInt 64 (formatDecimal n ++ rest) = .ok ((n : Int), rest) := by
  have hpd := parseDecimal_formatDecimal n
  have hdig := formatDecimal_digits n
  have hne := formatDecimal_ne_nil n
  cases hf : formatDecimal n with
  | nil => exact absurd hf hne
  | cons d ds =>
    rw [hf] at hpd hdig
    have hd := hdig d (by simp)
    have hplus := ne_of_digit d '+' hd rfl
    have hminus := ne_of_digit d '-' hd rfl
    have hf : (d == '-') = false := by simpa using hminus
    have hi : (n : Int) < (2 : Int) ^ 63 := by exact_mod_cast hn
    have htok := intOfToken_of_range false (d :: ds) (n : Int) (by simp [hpd]) (by omega) hi
    simp only [scanInt, List.cons_append, SkipSpace_digit d _ hd, hplus, hminus, or_self,
      if_false, hf]
    rw [← List.cons_append, scanNumber_digits d ds rest hdig hrest]
    simp only [htok]

theorem SkipSpace_formatDecimal (n : Nat) (rest : List Char) :
    SkipSpace (formatDecimal n ++ rest) = .ok (formatDecimal n ++ rest) := by
  have hdig := formatDecimal_digits n
  cases hf : formatDecimal n with
  | nil => exact absurd hf (formatDecimal_ne_nil n)
  | cons d ds =>
    rw [hf] at hdig
    exact SkipSpace_digit d _ (hdig d (by simp))

theorem scanVerb_formatDecimal (a : ScanArg) (n : Nat) (rest : List Char) :
    scanVerb a (formatDecimal n ++ rest) = scanOne a (formatDecimal n ++ rest) := by
  simp only [scanVerb, SkipSpace_formatDecimal]

theorem Sscanf_version (v : Nat) (rest : List Char) (hv : v < 2 ^ 63) (hrest : EndsNumber rest) :
    Sscanf (String.mk ('v' :: '=' :: (formatDecimal v ++ rest))) "v=%d" [.int] = .ok [(v : Int)] := by
  have hv' : isSpace 'v' = false := by decide
  have he : isSpace '=' = false := by decide
  simp only [Sscanf, doScanf, hv', he, scanVerb_formatDecimal, scanOne,
    scanInt_formatDecimal v rest hv hrest, Char.reduceEq, if_true, if_false,
    Bool.false_eq_true]

theorem Sscanf_cost (m t p : Nat) (rest : List Char) (hm : m < 2 ^ 32) (ht : t < 2 ^ 32)
    (hp : p < 2 ^ 8) (hrest : EndsNumber rest) :
    Sscanf (String.mk ('m' :: '=' :: (formatDecimal m ++ ',' :: 't' :: '=' ::
        (formatDecimal t ++ ',' :: 'p' :: '=' :: (formatDecimal p ++ rest)))))
      "m=%d,t=%d,p=%d" [.uint32, .uint32, .uint8] = .ok [(m : Int), (t : Int), (p : Int)] := by
  have h1 := scanUint_formatDecimal 32 m (',' :: 't' :: '=' ::
        (formatDecimal t ++ ',' :: 'p' :: '=' :: (formatDecimal p ++ rest))) (by decide) hm rfl
  have h2 := scanUint_formatDecimal 32 t (',' :: 'p' :: '=' :: (formatDecimal p ++ rest))
    (by decide) ht rfl
  have h3 := scanUint_formatDecimal 8 p rest (by decide) hp hrest
  have hsm : isSpace 'm' = false := by decide
  have hst : isSpace 't' = false := by decide
  have hsp : isSpace 'p' = false := by decide
  have hse : isSpace '=' = false := by decide
  have hsc : isSpace ',' = false := by decide
  simp only [Sscanf, doScanf, hsm, hst, hsp, hse, hsc, scanVerb_formatDecimal, scanOne,
    h1, h2, h3, Char.reduceEq, if_true, if_false, Bool.false_eq_true]

/-! ## Encoding followed by decoding -/

theorem argon2AlgorithmToString_ok (a : Nat) (name : String)
    (h : argon2AlgorithmToString a = .ok name) :
    argon2StringToAlgorithm name = .ok a ∧ '$' ∉ name.data := by
  unfold argon2AlgorithmToString at h
  split at h
  · rename_i h0
    cases h
    exact ⟨by simp [argon2StringToAlgorithm, h0], by decide⟩
  · split at h
    · rename_i h0 h1
      cases h
      exact ⟨by rw [h1]; decide, by decide⟩
    · cases h

theorem argon2AlgorithmToString_recognised (a : Nat)
    (h : a = AlgorithmArgon2id ∨ a = AlgorithmArgon2i) :
    ∃ name, argon2AlgorithmToString a = .ok name := by
  rcases h with h | h <;> subst h
  · exact ⟨"argon2id", rfl⟩
  · exact ⟨"argon2i", rfl⟩

theorem dollar_not_mem_formatDecimal (n : Nat) : '$' ∉ formatDecimal n := by
  intro h
  have := formatDecimal_digits n '$' h
  exact absurd this (by decide)

theorem dollar_not_mem_EncodeToString (bs : List Byte) : '$' ∉ EncodeToString bs := by
  intro h
  exact (EncodeToString_alphabet bs '$' h).1 rfl

theorem EncodeArgon2_eq (hash salt : List Byte) (p : Argon2Params) (name : String)
    (h : argon2AlgorithmToString p.Algorithm = .ok name) :
    EncodeArgon2 hash salt p =
      .ok (String.mk (encodedText name.data p.Memory p.Time p.Threads salt hash)) := by
  simp only [EncodeArgon2, h, Sprintf_argonEncFormat, encodedText]

theorem stringsSplit_encodedText (name : List Char) (m t p : Nat) (salt hash : List Byte)
    (hname : '$' ∉ name) :
    stringsSplit '$' (encodedText name m t p salt hash) =
      [[], name, 'v' :: '=' :: formatDecimal argon2Version,
        'm' :: '=' :: formatDecimal m ++ ',' :: 't' :: '=' :: formatDecimal t ++
          ',' :: 'p' :: '=' :: formatDecimal p,
        EncodeToString salt, EncodeToString hash] := by
  have h1 : '$' ∉ 'v' :: '=' :: formatDecimal argon2Version := by
    simp [dollar_not_mem_formatDecimal]
  have h2 : '$' ∉ 'm' :: '=' :: formatDecimal m ++ ',' :: 't' :: '=' :: formatDecimal t ++
      ',' :: 'p' :: '=' :: formatDecimal p := by
    simp [dollar_not_mem_formatDecimal]
  have h0 : stringsSplit '$' (encodedText name m t p salt hash) =
      [] :: stringsSplit '$' (name ++ '$' :: ('v' :: '=' :: formatDecimal argon2Version ++
    '$' :: ('m' :: '=' :: formatDecimal m ++ ',' :: 't' :: '=' :: formatDecimal t ++
      ',' :: 'p' :: '=' :: formatDecimal p ++
        '$' :: (EncodeToString salt ++ '$' :: EncodeToString hash)))) := by
    simp [encodedText, stringsSplit]
  rw [h0, stringsSplit_append _ _ _ hname, stringsSplit_append _ _ _ h1,
    stringsSplit_append _ _ _ h2, stringsSplit_append _ _ _ (dollar_not_mem_EncodeToString salt),
    stringsSplit_of_not_mem _ _ (dollar_not_mem_EncodeToString hash)]

theorem DecodeArgon2_encodedText (name : String) (a m t p : Nat) (salt hash : List Byte)
    (h : argon2AlgorithmToString a = .ok name)
    (hm : m < 2 ^ 32) (ht : t < 2 ^ 32) (hp : p < 2 ^ 8) :
    DecodeArgon2 (String.mk (encodedText name.data m t p salt hash)) =
      .ok (hash, salt,
        { Algorithm := a
          SaltLength := salt.length % 2 ^ 32
          KeyLength := hash.length % 2 ^ 32
          Time := t
          Memory := m
          Threads := p
          Version := (argon2Version : Int) }) := by
  obtain ⟨halg, hname⟩ := argon2AlgorithmToString_ok a name h
  have hv := Sscanf_version argon2Version [] (by decide) trivial
  have hc := Sscanf_cost m t p [] hm ht hp trivial
  simp only [List.append_nil] at hv hc
  simp only [DecodeArgon2, stringsSplit_encodedText _ _ _ _ _ _ hname, List.length_cons,
    List.length_nil, List.getD_cons_zero, List.getD_cons_succ, halg, hv,
    DecodeString_EncodeToString]
  simp [hc]

theorem sumPrimitive_ReturnsKeyLen : sumPrimitive.ReturnsKeyLen := by
  intro password salt time memory threads keyLen
  simp [sumPrimitive, sumKey]

/-! # The claims -/

/-- C1 (as amended).  For every hash, every salt and every well-typed params
whose Algorithm is one of the two recognised variants, `EncodeArgon2` succeeds
and `DecodeArgon2` of its output succeeds and returns the same hash, the same
salt, and params that agree with the input in Algorithm, Time, Memory and
Threads, while SaltLength is the length of the salt, KeyLength the length of
the hash (both modulo 2^32) and Version is `argon2.Version`. -/
theorem C1_decode_encode (hash salt : List Byte) (p : Argon2Params)
    (halg : p.Algorithm = AlgorithmArgon2id ∨ p.Algorithm = AlgorithmArgon2i)
    (hwt : p.WellTyped) :
    ∃ enc, EncodeArgon2 hash salt p = .ok enc ∧
      DecodeArgon2 enc = .ok (hash, salt,
        { p with
          SaltLength := salt.length % 2 ^ 32
          KeyLength := hash.length % 2 ^ 32
          Version := (argon2Version : Int) }) := by
  obtain ⟨name, hname⟩ := argon2AlgorithmToString_recognised p.Algorithm halg
  obtain ⟨_, _, _, ht, hm, hp, _⟩ := hwt
  exact ⟨_, EncodeArgon2_eq hash salt p name hname,
    DecodeArgon2_encodedText name p.Algorithm p.Memory p.Time p.Threads salt hash hname hm ht hp⟩

/-- C1, witness: the theorem at a hash of four bytes, a salt of five bytes and
the parameters of the package's test. -/
theorem C1_decode_encode_witness :
    (testParams.Algorithm = AlgorithmArgon2id ∨ testParams.Algorithm = AlgorithmArgon2i) ∧
    testParams.WellTyped ∧
    ∃ enc, EncodeArgon2 [1, 2, 3, 4] [72, 101, 108, 108, 111] testParams = .ok enc ∧
      DecodeArgon2 enc = .ok ([1, 2, 3, 4], [72, 101, 108, 108, 111],
        { testParams with
          SaltLength := ([72, 101, 108, 108, 111] : List Byte).length % 2 ^ 32
          KeyLength := ([1, 2, 3, 4] : List Byte).length % 2 ^ 32
          Version := (argon2Version : Int) }) :=
  ⟨Or.inl rfl, by decide,
    C1_decode_encode [1, 2, 3, 4] [72, 101, 108, 108, 111] testParams (Or.inl rfl) (by decide)⟩

/-- C1, counterexample to the claim as stated: with a hash of one byte, a salt
of one byte and params whose lengths are both 1 and whose Version is 0 (the
value the package's tests leave), decoding the encoder's output returns params
with Version 19, which differ from the input params. -/
theorem C1_counterexample :
    EncodeArgon2 [9] [7] ⟨AlgorithmArgon2id, 1, 1, 3, 12288, 4, 0⟩ =
      .ok "$argon2id$v=19$m=12288,t=3,p=4$Bw$CQ" ∧
    DecodeArgon2 "$argon2id$v=19$m=12288,t=3,p=4$Bw$CQ" =
      .ok ([9], [7], ⟨AlgorithmArgon2id, 1, 1, 3, 12288, 4, 19⟩) ∧
    DecodeArgon2 "$argon2id$v=19$m=12288,t=3,p=4$Bw$CQ" ≠
      .ok ([9], [7], ⟨AlgorithmArgon2id, 1, 1, 3, 12288, 4, 0⟩) := by
  refine ⟨by decide, by decide, by decide⟩

theorem HashArgon2Raw_congr (kdf : Argon2Primitive) (clear salt : List Byte)
    (p q : Argon2Params) (ha : p.Algorithm = q.Algorithm) (ht : p.Time = q.Time)
    (hm : p.Memory = q.Memory) (hp : p.Threads = q.Threads) (hk : p.KeyLength = q.KeyLength) :
    HashArgon2Raw kdf clear salt p = HashArgon2Raw kdf clear salt q := by
  simp only [HashArgon2Raw, ha, ht, hm, hp, hk]

theorem HashArgon2Raw_length (kdf : Argon2Primitive) (hkdf : kdf.ReturnsKeyLen)
    (clear salt key : List Byte) (p : Argon2Params)
    (h : HashArgon2Raw kdf clear salt p = .ok key) : key.length = p.KeyLength := by
  unfold HashArgon2Raw at h
  split at h
  · cases h
  · split at h <;> cases h
    · exact (hkdf _ _ _ _ _ _).1
    · exact (hkdf _ _ _ _ _ _).2

theorem HashArgon2Raw_recognised (kdf : Argon2Primitive) (clear salt : List Byte)
    (p : Argon2Params)
    (halg : p.Algorithm = AlgorithmArgon2id ∨ p.Algorithm = AlgorithmArgon2i) :
    ∃ key, HashArgon2Raw kdf clear salt p = .ok key := by
  obtain ⟨name, hname⟩ := argon2AlgorithmToString_recognised p.Algorithm halg
  simp only [HashArgon2Raw, hname]
  split <;> exact ⟨_, rfl⟩

theorem VerifyArgon2_EncodeArgon2 (kdf : Argon2Primitive) (password : String)
    (salt key : List Byte) (p : Argon2Params)
    (halg : p.Algorithm = AlgorithmArgon2id ∨ p.Algorithm = AlgorithmArgon2i)
    (hwt : p.WellTyped) (hlen : key.length = p.KeyLength) :
    ∃ key' E, HashArgon2Raw kdf (stringBytes password) salt p = .ok key' ∧
      EncodeArgon2 key salt p = .ok E ∧
      VerifyArgon2 kdf password E = (decide (key' = key), none) := by
  obtain ⟨key', hkey'⟩ := HashArgon2Raw_recognised kdf (stringBytes password) salt p halg
  obtain ⟨name, hname⟩ := argon2AlgorithmToString_recognised p.Algorithm halg
  obtain ⟨_, _, hk, ht, hm, hp, _⟩ := hwt
  refine ⟨key', _, hkey', EncodeArgon2_eq key salt p name hname, ?_⟩
  have hdec := DecodeArgon2_encodedText name p.Algorithm p.Memory p.Time p.Threads salt key
    hname hm ht hp
  have hraw := HashArgon2Raw_congr kdf (stringBytes password) salt
    { Algorithm := p.Algorithm
      SaltLength := salt.length % 2 ^ 32
      KeyLength := key.length % 2 ^ 32
      Time := p.Time
      Memory := p.Memory
      Threads := p.Threads
      Version := (argon2Version : Int) } p rfl rfl rfl rfl
    (by simp only [hlen]; exact Nat.mod_eq_of_lt hk)
  simp only [VerifyArgon2, hdec, hraw, hkey']
  by_cases h : key' = key <;> simp [h]

/-- C2.  For every primitive that returns exactly `keyLen` bytes, every
password, every salt and every well-typed params with a recognised Algorithm:
`HashArgon2Raw` returns a key, `EncodeArgon2` of that key returns an encoding
`E`, and `VerifyArgon2(password, E)` returns `(true, nil)`. -/
theorem C2_verify_accepts_password (kdf : Argon2Primitive) (hkdf : kdf.ReturnsKeyLen)
    (password : String) (salt : List Byte) (p : Argon2Params)
    (halg : p.Algorithm = AlgorithmArgon2id ∨ p.Algorithm = AlgorithmArgon2i)
    (hwt : p.WellTyped) :
    ∃ key E, HashArgon2Raw kdf (stringBytes password) salt p = .ok key ∧
      EncodeArgon2 key salt p = .ok E ∧
      VerifyArgon2 kdf password E = (true, none) := by
  obtain ⟨key, hkey⟩ := HashArgon2Raw_recognised kdf (stringBytes password) salt p halg
  have hlen := HashArgon2Raw_length kdf hkdf _ _ _ _ hkey
  obtain ⟨key', E, hkey', hE, hver⟩ :=
    VerifyArgon2_EncodeArgon2 kdf password salt key p halg hwt hlen
  have hsame : key' = key := by
    rw [hkey] at hkey'
    exact (Except.ok.inj hkey').symm
  refine ⟨key, E, hkey, hE, ?_⟩
  rw [hver, hsame]
  simp

/-- C2, witness: the password "HelloWorld", a salt of twelve bytes and the
parameters of the package's test, with `sumPrimitive` as the primitive. -/
theorem C2_verify_accepts_password_witness :
    sumPrimitive.ReturnsKeyLen ∧
    (testParams.Algorithm = AlgorithmArgon2id ∨ testParams.Algorithm = AlgorithmArgon2i) ∧
    testParams.WellTyped ∧
    ∃ key E,
      HashArgon2Raw sumPrimitive (stringBytes "HelloWorld")
        [1, 2, 3, 4, 5, 6, 7, 8, 9, 10, 11, 12] testParams = .ok key ∧
      EncodeArgon2 key [1, 2, 3, 4, 5, 6, 7, 8, 9, 10, 11, 12] testParams = .ok E ∧
      VerifyArgon2 sumPrimitive "HelloWorld" E = (true, none) :=
  ⟨sumPrimitive_ReturnsKeyLen, Or.inl rfl, by decide,
    C2_verify_accepts_password sumPrimitive sumPrimitive_ReturnsKeyLen "HelloWorld"
      [1, 2, 3, 4, 5, 6, 7, 8, 9, 10, 11, 12] testParams (Or.inl rfl) (by decide)⟩

/-- C3 (as amended).  For every primitive that returns exactly `keyLen` bytes,
every two passwords `P` and `P'`, every salt and every well-typed params with a
recognised Algorithm: with `key` the key of `P`, `key'` the key of `P'` under
the same salt and params, and `E` the encoding of `key`, `VerifyArgon2(P', E)`
returns no error and returns `true` exactly when `key' = key`; so a password
`P'` is rejected exactly when its key differs from the key of `P`. -/
theorem C3_verify_rejects_other_key (kdf : Argon2Primitive) (hkdf : kdf.ReturnsKeyLen)
    (P P' : String) (salt : List Byte) (p : Argon2Params)
    (halg : p.Algorithm = AlgorithmArgon2id ∨ p.Algorithm = AlgorithmArgon2i)
    (hwt : p.WellTyped) :
    ∃ key key' E, HashArgon2Raw kdf (stringBytes P) salt p = .ok key ∧
      HashArgon2Raw kdf (stringBytes P') salt p = .ok key' ∧
      EncodeArgon2 key salt p = .ok E ∧
      VerifyArgon2 kdf P' E = (decide (key' = key), none) := by
  obtain ⟨key, hkey⟩ := HashArgon2Raw_recognised kdf (stringBytes P) salt p halg
  have hlen := HashArgon2Raw_length kdf hkdf _ _ _ _ hkey
  obtain ⟨key', E, hkey', hE, hver⟩ :=
    VerifyArgon2_EncodeArgon2 kdf P' salt key p halg hwt hlen
  exact ⟨key, key', E, hkey, hkey', hE, hver⟩

/-- C3, witness: the passwords "HelloWorld" and "wrong", a salt of twelve
bytes and the parameters of the package's test, with `sumPrimitive`. -/
theorem C3_verify_rejects_other_key_witness :
    sumPrimitive.ReturnsKeyLen ∧
    (testParams.Algorithm = AlgorithmArgon2id ∨ testParams.Algorithm = AlgorithmArgon2i) ∧
    testParams.WellTyped ∧
    ∃ key key' E,
      HashArgon2Raw sumPrimitive (stringBytes "HelloWorld")
        [1, 2, 3, 4, 5, 6, 7, 8, 9, 10, 11, 12] testParams = .ok key ∧
      HashArgon2Raw sumPrimitive (stringBytes "wrong")
        [1, 2, 3, 4, 5, 6, 7, 8, 9, 10, 11, 12] testParams = .ok key' ∧
      EncodeArgon2 key [1, 2, 3, 4, 5, 6, 7, 8, 9, 10, 11, 12] testParams = .ok E ∧
      VerifyArgon2 sumPrimitive "wrong" E = (decide (key' = key), none) :=
  ⟨sumPrimitive_ReturnsKeyLen, Or.inl rfl, by decide,
    C3_verify_rejects_other_key sumPrimitive sumPrimitive_ReturnsKeyLen "HelloWorld" "wrong"
      [1, 2, 3, 4, 5, 6, 7, 8, 9, 10, 11, 12] testParams (Or.inl rfl) (by decide)⟩

/-- Every primitive that returns exactly `keyLen` bytes maps two different
passwords to the same key of one byte (there are more passwords than keys), and
then `VerifyArgon2` accepts the second password against the encoding made from
the first: no primitive makes the claim C3 true as stated. -/
theorem verify_accepts_a_different_password (kdf : Argon2Primitive)
    (hkdf : kdf.ReturnsKeyLen) :
    ∃ (P P' : String) (key : List Byte) (E : String), P' ≠ P ∧
      HashArgon2Raw kdf (stringBytes P) [] { testParams with KeyLength := 1 } = .ok key ∧
      EncodeArgon2 key [] { testParams with KeyLength := 1 } = .ok E ∧
      VerifyArgon2 kdf P' E = (true, none) := by
  let pw : Fin 257 → String := fun i => String.mk (List.replicate i.val 'a')
  let f : Fin 257 → Fin 256 := fun i =>
    (kdf.IDKey (stringBytes (pw i)) [] 3 (12 * 1024) 4 1).headD 0
  obtain ⟨i, j, hij, hf⟩ := Fintype.exists_ne_map_eq_of_card_lt f
    (by rw [Fintype.card_fin, Fintype.card_fin]; exact Nat.lt_succ_self 256)
  have hone : ∀ k : Fin 257, kdf.IDKey (stringBytes (pw k)) [] 3 (12 * 1024) 4 1 = [f k] := by
    intro k
    have hl := (hkdf (stringBytes (pw k)) [] 3 (12 * 1024) 4 1).1
    match hk : kdf.IDKey (stringBytes (pw k)) [] 3 (12 * 1024) 4 1, hl with
    | [b], _ => simp [f, hk]
  have hraw : ∀ k : Fin 257,
      HashArgon2Raw kdf (stringBytes (pw k)) [] { testParams with KeyLength := 1 } =
        .ok [f k] := by
    intro k
    rw [← hone k]
    rfl
  have hne : pw j ≠ pw i := by
    intro e
    have hlen : (pw j).data.length = (pw i).data.length := by rw [e]
    simp only [pw, List.length_replicate] at hlen
    exact hij (Fin.ext hlen.symm)
  obtain ⟨key', E, hkey', hE, hver⟩ :=
    VerifyArgon2_EncodeArgon2 kdf (pw j) [] [f i] { testParams with KeyLength := 1 }
      (Or.inl rfl) (by decide) rfl
  refine ⟨pw i, pw j, [f i], E, hne, hraw i, hE, ?_⟩
  rw [hraw j] at hkey'
  have hsame : key' = [f i] := by
    rw [← Except.ok.inj hkey', hf]
  rw [hver, hsame]
  simp

theorem lettersA_injective (i j : Fin 257) (h : i ≠ j) : lettersA j ≠ lettersA i := by
  intro e
  have hlen : (lettersA j).data.length = (lettersA i).data.length := by rw [e]
  simp only [lettersA, List.length_replicate] at hlen
  exact h (Fin.ext hlen.symm)

theorem one_byte_key_collision (kdf : Argon2Primitive) (hkdf : kdf.ReturnsKeyLen)
    (salt : List Byte) :
    ∃ i j : Fin 257, i ≠ j ∧ ∃ (key : List Byte) (E : String),
      HashArgon2Raw kdf (stringBytes (lettersA i)) salt oneByteKeyParams = .ok key ∧
      EncodeArgon2 key salt oneByteKeyParams = .ok E ∧
      VerifyArgon2 kdf (lettersA j) E = (true, none) := by
  let f : Fin 257 → Fin 256 := fun i =>
    (kdf.IDKey (stringBytes (lettersA i)) salt 3 (12 * 1024) 4 1).headD 0
  obtain ⟨i, j, hij, hf⟩ := Fintype.exists_ne_map_eq_of_card_lt f
    (by rw [Fintype.card_fin, Fintype.card_fin]; exact Nat.lt_succ_self 256)
  have hone : ∀ k : Fin 257,
      kdf.IDKey (stringBytes (lettersA k)) salt 3 (12 * 1024) 4 1 = [f k] := by
    intro k
    have hl := (hkdf (stringBytes (lettersA k)) salt 3 (12 * 1024) 4 1).1
    match hk : kdf.IDKey (stringBytes (lettersA k)) salt 3 (12 * 1024) 4 1, hl with
    | [b], _ => simp [f, hk]
  have hraw : ∀ k : Fin 257,
      HashArgon2Raw kdf (stringBytes (lettersA k)) salt oneByteKeyParams = .ok [f k] := by
    intro k
    rw [← hone k]
    rfl
  obtain ⟨key', E, hkey', hE, hver⟩ :=
    VerifyArgon2_EncodeArgon2 kdf (lettersA j) salt [f i] oneByteKeyParams
      (Or.inl rfl) (by decide) rfl
  refine ⟨i, j, hij, [f i], E, hraw i, hE, ?_⟩
  rw [hraw j] at hkey'
  have hsame : key' = [f i] := by
    rw [← Except.ok.inj hkey', hf]
  rw [hver, hsame]
  simp

/-- C3, counterexample to the claim as stated, for every primitive that returns
exactly `keyLen` bytes, the real one included.  The inputs are the 257
passwords made of 0 to 256 letters `a`, which differ from one another, the salt
`testSalt` of twelve bytes and the parameters of the package's test with a
KeyLength of 1.  There are more passwords than keys of one byte, so two of the
passwords have the same key, and `VerifyArgon2` accepts the second against the
encoding made from the first: no primitive makes `VerifyArgon2` return false on
every pair of different passwords among these. -/
theorem C3_counterexample :
    (∀ i j : Fin 257, i ≠ j → lettersA j ≠ lettersA i) ∧
    (oneByteKeyParams.Algorithm = AlgorithmArgon2id ∧ oneByteKeyParams.WellTyped) ∧
    ¬ ∃ kdf : Argon2Primitive, kdf.ReturnsKeyLen ∧
      ∀ i j : Fin 257, i ≠ j → ∀ (key : List Byte) (E : String),
        HashArgon2Raw kdf (stringBytes (lettersA i)) testSalt oneByteKeyParams = .ok key →
        EncodeArgon2 key testSalt oneByteKeyParams = .ok E →
        (VerifyArgon2 kdf (lettersA j) E).1 = false := by
  refine ⟨lettersA_injective, ⟨rfl, by decide⟩, ?_⟩
  rintro ⟨kdf, hkdf, hclaim⟩
  obtain ⟨i, j, hij, key, E, hraw, henc, hver⟩ := one_byte_key_collision kdf hkdf testSalt
  have hfalse := hclaim i j hij key E hraw henc
  rw [hver] at hfalse
  cases hfalse

/-- C4.  For every primitive, every password and every encoded string that
`DecodeArgon2` accepts with a version different from `argon2.Version`,
`VerifyArgon2` returns `(false, ErrVersionMismatch)`; the result is the same
whatever the primitive is, so no key is derived. -/
theorem C4_version_mismatch (kdf : Argon2Primitive) (password enc : String)
    (hash salt : List Byte) (p : Argon2Params)
    (hdec : DecodeArgon2 enc = .ok (hash, salt, p))
    (hver : p.Version ≠ (argon2Version : Int)) :
    VerifyArgon2 kdf password enc = (false, some ErrVersionMismatch) := by
  simp only [VerifyArgon2, hdec, hver, ne_eq, not_false_eq_true, if_true]

/-- C4, witness: an encoding with the version field 16. -/
theorem C4_version_mismatch_witness :
    DecodeArgon2 "$argon2id$v=16$m=12288,t=3,p=4$Bw$CQ" =
      .ok ([9], [7], ⟨AlgorithmArgon2id, 1, 1, 3, 12288, 4, 16⟩) ∧
    (16 : Int) ≠ (argon2Version : Int) ∧
    VerifyArgon2 sumPrimitive "HelloWorld" "$argon2id$v=16$m=12288,t=3,p=4$Bw$CQ" =
      (false, some ErrVersionMismatch) :=
  ⟨by decide, by decide,
    C4_version_mismatch sumPrimitive "HelloWorld" "$argon2id$v=16$m=12288,t=3,p=4$Bw$CQ"
      [9] [7] ⟨AlgorithmArgon2id, 1, 1, 3, 12288, 4, 16⟩ (by decide) (by decide)⟩

/-- C5.  For every primitive, every password and every encoded string on which
`DecodeArgon2` returns an error `e`, `VerifyArgon2` returns `(false, e)`. -/
theorem C5_decode_error_surfaces (kdf : Argon2Primitive) (password enc : String) (e : Error)
    (hdec : DecodeArgon2 enc = .error e) :
    VerifyArgon2 kdf password enc = (false, some e) := by
  simp only [VerifyArgon2, hdec]

/-- C5, witness: an encoding whose salt segment carries `=` padding. -/
theorem C5_decode_error_surfaces_witness :
    DecodeArgon2 "$argon2id$v=19$m=12288,t=3,p=4$Bw==$CQ" = .error (base64Corrupt 2) ∧
    VerifyArgon2 sumPrimitive "HelloWorld" "$argon2id$v=19$m=12288,t=3,p=4$Bw==$CQ" =
      (false, some (base64Corrupt 2)) :=
  ⟨by decide,
    C5_decode_error_surfaces sumPrimitive "HelloWorld" "$argon2id$v=19$m=12288,t=3,p=4$Bw==$CQ"
      (base64Corrupt 2) (by decide)⟩

/-- C6.  For every string that, split on `$`, does not yield exactly 6
segments, or equivalently does not contain exactly five `$`, `DecodeArgon2`
returns `ErrEncodingFormat` (and with it no hash, salt or params). -/
theorem C6_segment_count (enc : String)
    (h : (stringsSplit '$' enc.data).length ≠ 6 ∨ enc.data.count '$' ≠ 5) :
    DecodeArgon2 enc = .error ErrEncodingFormat := by
  have hlen : (stringsSplit '$' enc.data).length ≠ 6 := by
    rcases h with h | h
    · exact h
    · rw [stringsSplit_length]; omega
  simp only [DecodeArgon2, hlen, ne_eq, not_false_eq_true, if_true]

/-- C6, witness: an encoding of five segments (the version field is left
out). -/
theorem C6_segment_count_witness :
    ((stringsSplit '$' "$argon2id$m=12288,t=3,p=4$Bw$CQ".data).length ≠ 6 ∨
      "$argon2id$m=12288,t=3,p=4$Bw$CQ".data.count '$' ≠ 5) ∧
    DecodeArgon2 "$argon2id$m=12288,t=3,p=4$Bw$CQ" = .error ErrEncodingFormat :=
  ⟨Or.inl (by decide), C6_segment_count "$argon2id$m=12288,t=3,p=4$Bw$CQ" (Or.inl (by decide))⟩

/-- C7 (as amended).  `DecodeArgon2` does not look at the first segment: for
every text `pre` without `$` and every text `rest`, decoding `pre` followed by
`$` and `rest` returns exactly what decoding `$` followed by `rest` returns, be
it an error or a hash, a salt and params. -/
theorem C7_first_segment_ignored (pre rest : List Char) (hpre : '$' ∉ pre) :
    DecodeArgon2 (String.mk (pre ++ '$' :: rest)) = DecodeArgon2 (String.mk ('$' :: rest)) := by
  have h1 := stringsSplit_append '$' pre rest hpre
  have h2 := stringsSplit_append '$' [] rest (by simp)
  simp only [List.nil_append] at h2
  simp only [DecodeArgon2, h1, h2, List.length_cons, List.getD_cons_succ]

/-- C7, witness: the first segment `garbage` in front of a canonical
encoding. -/
theorem C7_first_segment_ignored_witness :
    '$' ∉ "garbage".data ∧
    DecodeArgon2 (String.mk ("garbage".data ++ '$' :: "argon2id$v=19$m=12288,t=3,p=4$Bw$CQ".data)) =
      DecodeArgon2 (String.mk ('$' :: "argon2id$v=19$m=12288,t=3,p=4$Bw$CQ".data)) :=
  ⟨by decide,
    C7_first_segment_ignored "garbage".data "argon2id$v=19$m=12288,t=3,p=4$Bw$CQ".data
      (by decide)⟩

/-- C7, counterexample to the claim as stated: a string of 6 segments that
does not begin with `$` (its first segment is `x`) and that `DecodeArgon2`
accepts. -/
theorem C7_counterexample :
    (stringsSplit '$' "x$argon2id$v=19$m=12288,t=3,p=4$Bw$CQ".data).length = 6 ∧
    (stringsSplit '$' "x$argon2id$v=19$m=12288,t=3,p=4$Bw$CQ".data).head? = some ['x'] ∧
    DecodeArgon2 "x$argon2id$v=19$m=12288,t=3,p=4$Bw$CQ" =
      .ok ([9], [7], ⟨AlgorithmArgon2id, 1, 1, 3, 12288, 4, 19⟩) := by
  refine ⟨by decide, by decide, by decide⟩

theorem argon2StringToAlgorithm_unknown (seg : List Char)
    (hid : seg ≠ "argon2id".data) (hi : seg ≠ "argon2i".data) :
    argon2StringToAlgorithm (String.mk seg) = .error ErrUnknownAlgorithm := by
  have h1 : String.mk seg ≠ "argon2id" := fun e => hid (by rw [← e])
  have h2 : String.mk seg ≠ "argon2i" := fun e => hi (by rw [← e])
  simp [argon2StringToAlgorithm, h1, h2]

/-- C8.  For every string that splits on `$` into exactly 6 segments and whose
second segment is neither `argon2id` nor `argon2i`, `DecodeArgon2` returns
`ErrUnknownAlgorithm`, whatever the other segments contain. -/
theorem C8_unknown_algorithm (enc : String)
    (h6 : (stringsSplit '$' enc.data).length = 6)
    (hid : (stringsSplit '$' enc.data).getD 1 [] ≠ "argon2id".data)
    (hi : (stringsSplit '$' enc.data).getD 1 [] ≠ "argon2i".data) :
    DecodeArgon2 enc = .error ErrUnknownAlgorithm := by
  simp only [DecodeArgon2, h6, ne_eq, not_true_eq_false, if_false,
    argon2StringToAlgorithm_unknown _ hid hi]

/-- C8, witness: the name `Argon2id` (capital A) in front of four segments
that are not acceptable either. -/
theorem C8_unknown_algorithm_witness :
    (stringsSplit '$' "$Argon2id$x$y$=$=".data).length = 6 ∧
    (stringsSplit '$' "$Argon2id$x$y$=$=".data).getD 1 [] ≠ "argon2id".data ∧
    (stringsSplit '$' "$Argon2id$x$y$=$=".data).getD 1 [] ≠ "argon2i".data ∧
    DecodeArgon2 "$Argon2id$x$y$=$=" = .error ErrUnknownAlgorithm :=
  ⟨by decide, by decide, by decide,
    C8_unknown_algorithm "$Argon2id$x$y$=$=" (by decide) (by decide) (by decide)⟩

/-! ## The forms that `fmt.Sscanf` accepts -/

theorem SkipSpace_eq_ok (s r : List Char) (h : SkipSpace s = .ok r) :
    ∃ ws, s = ws ++ r ∧ Blanks ws ∧ NoBlankHead r := by
  induction s with
  | nil =>
    simp only [SkipSpace, Except.ok.injEq] at h
    subst h
    exact ⟨[], rfl, by simp [Blanks], trivial⟩
  | cons c cs ih =>
    simp only [SkipSpace] at h
    split at h
    · cases h
    · rename_i hnl
      split at h
      · rename_i hsp
        obtain ⟨ws, hws, hb, hr⟩ := ih h
        refine ⟨c :: ws, by rw [hws]; rfl, ?_, hr⟩
        intro x hx
        rcases List.mem_cons.1 hx with hx | hx
        · subst hx; exact ⟨hsp, hnl⟩
        · exact hb x hx
      · rename_i hsp
        simp only [Except.ok.injEq] at h
        subst h
        exact ⟨[], rfl, by simp [Blanks], by simpa [NoBlankHead] using hsp⟩

theorem SkipSpace_noBlankHead (r : List Char) (hr : NoBlankHead r) : SkipSpace r = .ok r := by
  cases r with
  | nil => rfl
  | cons c cs =>
    simp only [NoBlankHead] at hr
    have hnl : c ≠ '\n' := by
      intro e; rw [e] at hr; exact absurd hr (by decide)
    simp [SkipSpace, hnl, hr]

theorem SkipSpace_blanks (ws r : List Char) (hws : Blanks ws) (hr : NoBlankHead r) :
    SkipSpace (ws ++ r) = .ok r := by
  induction ws with
  | nil => exact SkipSpace_noBlankHead r hr
  | cons c cs ih =>
    have hc := hws c (by simp)
    have := ih (fun x hx => hws x (by simp [hx]))
    simp [SkipSpace, hc.1, hc.2, this]

theorem SkipSpace_idem (s r : List Char) (h : SkipSpace s = .ok r) : SkipSpace r = .ok r := by
  obtain ⟨_, _, _, hr⟩ := SkipSpace_eq_ok s r h
  exact SkipSpace_noBlankHead r hr

theorem scanNumber_eq_ok (s tok rest : List Char) (h : scanNumber s = .ok (tok, rest)) :
    s = tok ++ rest ∧ Digits tok ∧ EndsNumber rest := by
  cases s with
  | nil => simp [scanNumber] at h
  | cons c cs =>
    simp only [scanNumber] at h
    split at h
    · rename_i hc
      simp only [Except.ok.injEq, Prod.mk.injEq] at h
      obtain ⟨h1, h2⟩ := h
      subst h1 h2
      refine ⟨by simp [List.takeWhile_append_dropWhile], ⟨by simp, ?_⟩, ?_⟩
      · intro x hx
        rcases List.mem_cons.1 hx with hx | hx
        · subst hx; exact hc
        · exact List.mem_takeWhile_imp hx
      · cases hd : cs.dropWhile isDecimalDigit with
        | nil => trivial
        | cons d ds =>
          have := List.head_dropWhile_not isDecimalDigit cs (by rw [hd]; simp)
          simpa [EndsNumber, hd] using this
    · cases h

theorem scanNumber_of_digits (tok rest : List Char) (ht : Digits tok) (hrest : EndsNumber rest) :
    scanNumber (tok ++ rest) = .ok (tok, rest) := by
  obtain ⟨hne, hd⟩ := ht
  cases tok with
  | nil => exact absurd rfl hne
  | cons d ds => exact scanNumber_digits d ds rest hd hrest

theorem noBlankHead_digits (ds rest : List Char) (hd : Digits ds) : NoBlankHead (ds ++ rest) := by
  obtain ⟨hne, hd⟩ := hd
  cases ds with
  | nil => exact absurd rfl hne
  | cons d ds => exact isSpace_of_digit d (hd d (by simp))

theorem scanUint_eq_ok (bitSize : Nat) (s rest : List Char) (v : Int)
    (h : scanUint bitSize s = .ok (v, rest)) :
    ∃ n : Nat, v = (n : Int) ∧ ScansUint bitSize s rest n := by
  unfold scanUint at h
  split at h
  · cases h
  · cases h
  · rename_i c cs hskip
    obtain ⟨ws, hws, hb, _⟩ := SkipSpace_eq_ok _ _ hskip
    split at h
    · cases h
    · rename_i tok rest' hnum
      obtain ⟨hs, hd, hr⟩ := scanNumber_eq_ok _ _ _ hnum
      simp only at h
      split at h
      · cases h
      · split at h
        · cases h
        · rename_i h64 hbits
          simp only [Except.ok.injEq, Prod.mk.injEq] at h
          obtain ⟨h1, h2⟩ := h
          subst h2
          exact ⟨parseDecimal 0 tok, h1.symm, ws, tok, by rw [hws, hs], hb, hd, hr, rfl,
            by omega⟩

theorem scanUint_of_form (bitSize : Nat) (hbits : bitSize ≤ 64) (s rest : List Char) (n : Nat)
    (h : ScansUint bitSize s rest n) : scanUint bitSize s = .ok ((n : Int), rest) := by
  obtain ⟨ws, ds, hs, hb, hd, hr, hv, hn⟩ := h
  have h64 : n < 2 ^ 64 := lt_of_lt_of_le hn (Nat.pow_le_pow_right (by decide) hbits)
  have hskip := SkipSpace_blanks ws (ds ++ rest) hb (noBlankHead_digits ds rest hd)
  have hnum := scanNumber_of_digits ds rest hd hr
  cases hds : ds ++ rest with
  | nil =>
    obtain ⟨hne, _⟩ := hd
    simp at hds
    exact absurd hds.1 hne
  | cons c cs =>
    subst hs
    rw [hds] at hskip hnum ⊢
    simp only [scanUint, hskip, hnum, hv]
    rw [if_neg (by omega), if_neg (Nat.not_le.2 hn)]

theorem SkipSpace_error (s : List Char) (e : Error) (h : SkipSpace s = .error e) :
    e = scanUnexpectedNewline := by
  induction s with
  | nil => simp [SkipSpace] at h
  | cons d ds ih =>
    simp only [SkipSpace] at h
    split at h
    · cases h; rfl
    · split at h
      · exact ih h
      · cases h

theorem scanNumber_error (s : List Char) (e : Error) (h : scanNumber s = .error e) :
    e = scanEOF ∨ e = scanExpectedInteger := by
  cases s with
  | nil => simp only [scanNumber] at h; cases h; simp
  | cons c cs =>
    simp only [scanNumber] at h
    split at h
    · cases h
    · cases h; simp

theorem scanUint_error (bitSize : Nat) (s : List Char) (e : Error)
    (h : scanUint bitSize s = .error e) :
    e = scanUnexpectedNewline ∨ e = scanEOF ∨ e = scanExpectedInteger ∨ e = scanRange ∨
      e = scanOverflow := by
  unfold scanUint at h
  split at h
  · rename_i e' hskip
    cases h
    exact Or.inl (SkipSpace_error _ _ hskip)
  · cases h; simp
  · split at h
    · rename_i e' hnum
      cases h
      rcases scanNumber_error _ _ hnum with h | h <;> simp [h]
    · simp only at h
      split at h
      · cases h; simp
      · split at h
        · cases h; simp
        · cases h

theorem scanInt_eq_ok (s rest : List Char) (v : Int) (h : scanInt 64 s = .ok (v, rest)) :
    ScansInt s rest v := by
  unfold scanInt at h
  split at h
  · cases h
  · cases h
  · rename_i c cs hskip
    obtain ⟨ws, hws, hb, _⟩ := SkipSpace_eq_ok _ _ hskip
    split at h
    · cases h
    · rename_i tok rest' hnum
      obtain ⟨hs, hd, hr⟩ := scanNumber_eq_ok _ _ _ hnum
      split at h
      · cases h
      · rename_i i htok
        simp only [Except.ok.injEq, Prod.mk.injEq] at h
        obtain ⟨h1, h2⟩ := h
        subst h1 h2
        obtain ⟨hi, hlo, hhi⟩ := intOfToken_eq_ok _ _ _ _ htok
        by_cases hplus : c = '+'
        · subst hplus
          simp only [true_or, if_true] at hs
          have hf : ('+' == '-') = false := by decide
          simp only [hf, Bool.false_eq_true, if_false] at hi
          exact ⟨ws, ['+'], tok, by rw [hws, hs]; rfl, hb, Or.inl ⟨Or.inr rfl, hi⟩, hd, hr,
            hlo, hhi⟩
        · by_cases hminus : c = '-'
          · subst hminus
            simp only [or_true, if_true] at hs
            have hf : ('-' == '-') = true := by decide
            simp only [hf, if_true] at hi
            exact ⟨ws, ['-'], tok, by rw [hws, hs]; rfl, hb, Or.inr ⟨rfl, hi⟩, hd, hr,
              hlo, hhi⟩
          · simp only [hplus, hminus, or_self, if_false] at hs
            have hf : (c == '-') = false := by simpa using hminus
            simp only [hf, Bool.false_eq_true, if_false] at hi
            exact ⟨ws, [], tok, by rw [hws, hs]; rfl, hb, Or.inl ⟨Or.inl rfl, hi⟩, hd, hr,
              hlo, hhi⟩

theorem scanInt_of_form (s rest : List Char) (i : Int) (h : ScansInt s rest i) :
    scanInt 64 s = .ok (i, rest) := by
  obtain ⟨ws, sign, ds, hs, hb, hsign, hd, hr, hlo, hhi⟩ := h
  have hnum := scanNumber_of_digits ds rest hd hr
  subst hs
  rcases hsign with ⟨hsg | hsg, hi⟩ | ⟨hsg, hi⟩
  · subst hsg
    have hskip := SkipSpace_blanks ws (ds ++ rest) hb (noBlankHead_digits ds rest hd)
    have htok := intOfToken_of_range false ds i (by simpa using hi) hlo hhi
    cases hds : ds ++ rest with
    | nil =>
      obtain ⟨hne, _⟩ := hd
      simp at hds
      exact absurd hds.1 hne
    | cons c cs =>
      have hc : isDecimalDigit c = true := by
        obtain ⟨hne, hall⟩ := hd
        cases ds with
        | nil => exact absurd rfl hne
        | cons d ds' =>
          simp only [List.cons_append, List.cons.injEq] at hds
          rw [← hds.1]; exact hall d (by simp)
      have hplus := ne_of_digit c '+' hc rfl
      have hminus := ne_of_digit c '-' hc rfl
      have hf : (c == '-') = false := by simpa using hminus
      simp only [List.nil_append]
      rw [hds] at hskip hnum
      simp only [scanInt, hskip, hplus, hminus, or_self, if_false, hnum, hf, htok]
  · subst hsg
    have hnb : NoBlankHead ('+' :: (ds ++ rest)) := by
      show isSpace '+' = false
      decide
    have hskip := SkipSpace_blanks ws ('+' :: (ds ++ rest)) hb hnb
    have hf : ('+' == '-') = false := by decide
    have htok := intOfToken_of_range false ds i (by simpa using hi) hlo hhi
    simp only [List.singleton_append]
    simp only [scanInt, hskip, true_or, if_true, hnum, hf, htok]
  · subst hsg
    have hnb : NoBlankHead ('-' :: (ds ++ rest)) := by
      show isSpace '-' = false
      decide
    have hskip := SkipSpace_blanks ws ('-' :: (ds ++ rest)) hb hnb
    have hf : ('-' == '-') = true := by decide
    have htok := intOfToken_of_range true ds i (by simpa using hi) hlo hhi
    simp only [List.singleton_append]
    simp only [scanInt, hskip, or_true, if_true, hnum, hf, htok]

theorem scanInt_error (bitSize : Nat) (s : List Char) (e : Error)
    (h : scanInt bitSize s = .error e) :
    e = scanUnexpectedNewline ∨ e = scanEOF ∨ e = scanExpectedInteger ∨ e = scanRange ∨
      e = scanOverflow := by
  unfold scanInt at h
  split at h
  · rename_i e' hskip
    cases h
    exact Or.inl (SkipSpace_error _ _ hskip)
  · cases h; simp
  · split at h
    · rename_i e' hnum
      cases h
      rcases scanNumber_error _ _ hnum with h | h <;> simp [h]
    · split at h
      · rename_i e' htok
        cases h
        rcases intOfToken_error _ _ _ _ htok with h | h <;> simp [h]
      · cases h

theorem scanVerb_eq (a : ScanArg) (s : List Char) : scanVerb a s = scanOne a s := by
  unfold scanVerb
  cases h : SkipSpace s with
  | error e => cases a <;> simp only [scanOne, scanInt, scanUint, h]
  | ok s1 =>
    have h1 := SkipSpace_idem s s1 h
    cases a <;> simp only [scanOne, scanInt, scanUint, h, h1]

theorem doScanf_lit (c : Char) (hc : c ≠ '%') (hs : isSpace c = false) (fmt input : List Char)
    (args : List ScanArg) :
    doScanf (c :: fmt) false input args =
      match input with
      | [] => .error scanUnexpectedEOF
      | r :: input' => if c = r then doScanf fmt false input' args else .error scanNoMatch := by
  simp only [doScanf, hc, hs, if_false, Bool.false_eq_true]

theorem doScanf_verb (a : ScanArg) (fmt input : List Char) (args : List ScanArg) :
    doScanf ('%' :: 'd' :: fmt) false input (a :: args) =
      match scanOne a input with
      | .error e => .error e
      | .ok (x, input2) =>
        match doScanf fmt false input2 args with
        | .error e => .error e
        | .ok xs => .ok (x :: xs) := by
  simp only [doScanf, if_true, scanVerb_eq]

theorem doScanf_lit_ok (c : Char) (hc : c ≠ '%') (hs : isSpace c = false)
    (fmt input : List Char) (args : List ScanArg) (vs : List Int) :
    doScanf (c :: fmt) false input args = .ok vs ↔
      ∃ input', input = c :: input' ∧ doScanf fmt false input' args = .ok vs := by
  rw [doScanf_lit c hc hs]
  cases input with
  | nil => simp
  | cons r input' =>
    by_cases h : c = r
    · subst h; simp
    · simp [h]
      intro e; exact absurd e.symm h

theorem doScanf_verb_ok (a : ScanArg) (fmt input : List Char) (args : List ScanArg)
    (vs : List Int) :
    doScanf ('%' :: 'd' :: fmt) false input (a :: args) = .ok vs ↔
      ∃ x input2 xs, scanOne a input = .ok (x, input2) ∧
        doScanf fmt false input2 args = .ok xs ∧ vs = x :: xs := by
  rw [doScanf_verb]
  cases h1 : scanOne a input with
  | error e => simp
  | ok r =>
    obtain ⟨x, input2⟩ := r
    cases h2 : doScanf fmt false input2 args with
    | error e => simp [h2]
    | ok xs =>
      simp only [h2, Except.ok.injEq, Prod.mk.injEq]
      constructor
      · intro h; exact ⟨x, input2, xs, ⟨rfl, rfl⟩, h2, h.symm⟩
      · rintro ⟨x', i', xs', ⟨rfl, rfl⟩, h3, rfl⟩
        rw [h2] at h3
        simp only [Except.ok.injEq] at h3
        rw [h3]

theorem doScanf_lit_error (c : Char) (hc : c ≠ '%') (hs : isSpace c = false)
    (fmt input : List Char) (args : List ScanArg) (e : Error)
    (h : doScanf (c :: fmt) false input args = .error e) :
    e = scanUnexpectedEOF ∨ e = scanNoMatch ∨
      ∃ input', doScanf fmt false input' args = .error e := by
  rw [doScanf_lit c hc hs] at h
  cases input with
  | nil => simp at h; exact Or.inl h.symm
  | cons r input' =>
    by_cases h1 : c = r
    · subst h1; simp at h; exact Or.inr (Or.inr ⟨_, h⟩)
    · simp [h1] at h; exact Or.inr (Or.inl h.symm)

theorem doScanf_verb_error (a : ScanArg) (fmt input : List Char) (args : List ScanArg)
    (e : Error) (h : doScanf ('%' :: 'd' :: fmt) false input (a :: args) = .error e) :
    scanOne a input = .error e ∨ ∃ input2, doScanf fmt false input2 args = .error e := by
  rw [doScanf_verb] at h
  cases h1 : scanOne a input with
  | error e' => rw [h1] at h; simp at h; exact Or.inl (by rw [h])
  | ok r =>
    obtain ⟨x, input2⟩ := r
    rw [h1] at h
    cases h2 : doScanf fmt false input2 args with
    | error e' => simp [h2] at h; exact Or.inr ⟨input2, by rw [h2, h]⟩
    | ok xs => simp [h2] at h

theorem scanOne_error (a : ScanArg) (s : List Char) (e : Error) (h : scanOne a s = .error e) :
    e.IsScan := by
  have h' : e = scanUnexpectedNewline ∨ e = scanEOF ∨ e = scanExpectedInteger ∨ e = scanRange ∨
      e = scanOverflow := by
    cases a
    · exact scanInt_error _ _ _ h
    · exact scanUint_error _ _ _ h
    · exact scanUint_error _ _ _ h
  unfold Error.IsScan
  rcases h' with h | h | h | h | h <;> simp [h]

theorem Sscanf_version_ok (seg : List Char) (vs : List Int) :
    Sscanf (String.mk seg) "v=%d" [.int] = .ok vs ↔
      ∃ s rest i, seg = 'v' :: '=' :: s ∧ ScansInt s rest i ∧ vs = [i] := by
  have hv : isSpace 'v' = false := by decide
  have he : isSpace '=' = false := by decide
  have hfmt : "v=%d".data = ['v', '=', '%', 'd'] := rfl
  simp only [Sscanf, hfmt, doScanf_lit_ok 'v' (by decide) hv, doScanf_lit_ok '=' (by decide) he,
    doScanf_verb_ok, scanOne]
  constructor
  · rintro ⟨i1, rfl, i2, rfl, x, rest, xs, hx, hnil, rfl⟩
    simp only [doScanf, Except.ok.injEq] at hnil
    subst hnil
    exact ⟨i2, rest, x, rfl, scanInt_eq_ok _ _ _ hx, rfl⟩
  · rintro ⟨s, rest, i, rfl, hi, rfl⟩
    exact ⟨_, rfl, _, rfl, i, rest, [], scanInt_of_form _ _ _ hi, rfl, rfl⟩

theorem Sscanf_version_error (seg : List Char) (e : Error)
    (h : Sscanf (String.mk seg) "v=%d" [.int] = .error e) : e.IsScan := by
  have hv : isSpace 'v' = false := by decide
  have he : isSpace '=' = false := by decide
  have hfmt : "v=%d".data = ['v', '=', '%', 'd'] := rfl
  simp only [Sscanf, hfmt] at h
  rcases doScanf_lit_error 'v' (by decide) hv _ _ _ _ h with h1 | h1 | ⟨i1, h1⟩
  · simp [Error.IsScan, h1]
  · simp [Error.IsScan, h1]
  · rcases doScanf_lit_error '=' (by decide) he _ _ _ _ h1 with h2 | h2 | ⟨i2, h2⟩
    · simp [Error.IsScan, h2]
    · simp [Error.IsScan, h2]
    · rcases doScanf_verb_error _ _ _ _ _ h2 with h3 | ⟨i3, h3⟩
      · exact scanOne_error _ _ _ h3
      · simp [doScanf] at h3

theorem Sscanf_version_not_form (seg : List Char) (h : ¬ VersionForm seg) :
    ∃ e, Sscanf (String.mk seg) "v=%d" [.int] = .error e ∧ e.IsScan := by
  cases hr : Sscanf (String.mk seg) "v=%d" [.int] with
  | error e => exact ⟨e, rfl, Sscanf_version_error seg e hr⟩
  | ok vs =>
    obtain ⟨s, rest, i, hs, hi, _⟩ := (Sscanf_version_ok seg vs).1 hr
    exact absurd ⟨s, rest, i, hs, hi⟩ h

theorem Sscanf_cost_ok (seg : List Char) (vs : List Int) :
    Sscanf (String.mk seg) "m=%d,t=%d,p=%d" [.uint32, .uint32, .uint8] = .ok vs ↔
      ∃ s1 s2 s3 rest m t p, seg = 'm' :: '=' :: s1 ∧
        ScansUint 32 s1 (',' :: 't' :: '=' :: s2) m ∧
        ScansUint 32 s2 (',' :: 'p' :: '=' :: s3) t ∧
        ScansUint 8 s3 rest p ∧ vs = [(m : Int), (t : Int), (p : Int)] := by
  have hm : isSpace 'm' = false := by decide
  have ht : isSpace 't' = false := by decide
  have hp : isSpace 'p' = false := by decide
  have he : isSpace '=' = false := by decide
  have hc : isSpace ',' = false := by decide
  have hfmt : "m=%d,t=%d,p=%d".data =
      ['m', '=', '%', 'd', ',', 't', '=', '%', 'd', ',', 'p', '=', '%', 'd'] := rfl
  simp only [Sscanf, hfmt, doScanf_lit_ok 'm' (by decide) hm, doScanf_lit_ok '=' (by decide) he,
    doScanf_lit_ok 't' (by decide) ht, doScanf_lit_ok 'p' (by decide) hp,
    doScanf_lit_ok ',' (by decide) hc, doScanf_verb_ok, scanOne]
  constructor
  · rintro ⟨_, rfl, s1, rfl, x1, _, xs1, hx1, ⟨_, rfl, _, rfl, s2, rfl, x2, _, xs2, hx2,
      ⟨_, rfl, _, rfl, s3, rfl, x3, rest, xs3, hx3, hnil, rfl⟩, rfl⟩, rfl⟩
    simp only [doScanf, Except.ok.injEq] at hnil
    subst hnil
    obtain ⟨m, rfl, hm'⟩ := scanUint_eq_ok _ _ _ _ hx1
    obtain ⟨t, rfl, ht'⟩ := scanUint_eq_ok _ _ _ _ hx2
    obtain ⟨p, rfl, hp'⟩ := scanUint_eq_ok _ _ _ _ hx3
    exact ⟨s1, s2, s3, rest, m, t, p, rfl, hm', ht', hp', rfl⟩
  · rintro ⟨s1, s2, s3, rest, m, t, p, rfl, hm', ht', hp', rfl⟩
    exact ⟨_, rfl, _, rfl, _, _, _, scanUint_of_form 32 (by decide) _ _ _ hm',
      ⟨_, rfl, _, rfl, _, rfl, _, _, _, scanUint_of_form 32 (by decide) _ _ _ ht',
        ⟨_, rfl, _, rfl, _, rfl, _, _, _, scanUint_of_form 8 (by decide) _ _ _ hp', rfl, rfl⟩,
        rfl⟩, rfl⟩

theorem Sscanf_cost_error (seg : List Char) (e : Error)
    (h : Sscanf (String.mk seg) "m=%d,t=%d,p=%d" [.uint32, .uint32, .uint8] = .error e) :
    e.IsScan := by
  have hm : isSpace 'm' = false := by decide
  have ht : isSpace 't' = false := by decide
  have hp : isSpace 'p' = false := by decide
  have he : isSpace '=' = false := by decide
  have hc : isSpace ',' = false := by decide
  have hfmt : "m=%d,t=%d,p=%d".data =
      ['m', '=', '%', 'd', ',', 't', '=', '%', 'd', ',', 'p', '=', '%', 'd'] := rfl
  have hlit : ∀ e', e' = scanUnexpectedEOF ∨ e' = scanNoMatch → e'.IsScan := by
    intro e' h'; rcases h' with h' | h' <;> simp [Error.IsScan, h']
  simp only [Sscanf, hfmt] at h
  rcases doScanf_lit_error 'm' (by decide) hm _ _ _ _ h with h1 | h1 | ⟨_, h1⟩
  · exact hlit e (Or.inl h1)
  · exact hlit e (Or.inr h1)
  rcases doScanf_lit_error '=' (by decide) he _ _ _ _ h1 with h2 | h2 | ⟨_, h2⟩
  · exact hlit e (Or.inl h2)
  · exact hlit e (Or.inr h2)
  rcases doScanf_verb_error _ _ _ _ _ h2 with h3 | ⟨_, h3⟩
  · exact scanOne_error _ _ _ h3
  rcases doScanf_lit_error ',' (by decide) hc _ _ _ _ h3 with h4 | h4 | ⟨_, h4⟩
  · exact hlit e (Or.inl h4)
  · exact hlit e (Or.inr h4)
  rcases doScanf_lit_error 't' (by decide) ht _ _ _ _ h4 with h5 | h5 | ⟨_, h5⟩
  · exact hlit e (Or.inl h5)
  · exact hlit e (Or.inr h5)
  rcases doScanf_lit_error '=' (by decide) he _ _ _ _ h5 with h6 | h6 | ⟨_, h6⟩
  · exact hlit e (Or.inl h6)
  · exact hlit e (Or.inr h6)
  rcases doScanf_verb_error _ _ _ _ _ h6 with h7 | ⟨_, h7⟩
  · exact scanOne_error _ _ _ h7
  rcases doScanf_lit_error ',' (by decide) hc _ _ _ _ h7 with h8 | h8 | ⟨_, h8⟩
  · exact hlit e (Or.inl h8)
  · exact hlit e (Or.inr h8)
  rcases doScanf_lit_error 'p' (by decide) hp _ _ _ _ h8 with h9 | h9 | ⟨_, h9⟩
  · exact hlit e (Or.inl h9)
  · exact hlit e (Or.inr h9)
  rcases doScanf_lit_error '=' (by decide) he _ _ _ _ h9 with h10 | h10 | ⟨_, h10⟩
  · exact hlit e (Or.inl h10)
  · exact hlit e (Or.inr h10)
  rcases doScanf_verb_error _ _ _ _ _ h10 with h11 | ⟨_, h11⟩
  · exact scanOne_error _ _ _ h11
  · simp [doScanf] at h11

theorem Sscanf_cost_not_form (seg : List Char) (h : ¬ CostForm seg) :
    ∃ e, Sscanf (String.mk seg) "m=%d,t=%d,p=%d" [.uint32, .uint32, .uint8] = .error e ∧
      e.IsScan := by
  cases hr : Sscanf (String.mk seg) "m=%d,t=%d,p=%d" [.uint32, .uint32, .uint8] with
  | error e => exact ⟨e, rfl, Sscanf_cost_error seg e hr⟩
  | ok vs =>
    obtain ⟨s1, s2, s3, rest, m, t, p, hs, hm, ht, hp, _⟩ := (Sscanf_cost_ok seg vs).1 hr
    exact absurd ⟨s1, s2, s3, rest, m, t, p, hs, hm, ht, hp⟩ h

theorem Error.IsScan.ne_ErrEncodingFormat (e : Error) (h : e.IsScan) : e ≠ ErrEncodingFormat := by
  intro he
  subst he
  simp [Error.IsScan] at h

theorem argon2StringToAlgorithm_recognised (seg : List Char)
    (h : seg = "argon2id".data ∨ seg = "argon2i".data) :
    ∃ alg, argon2StringToAlgorithm (String.mk seg) = .ok alg := by
  rcases h with h | h <;> subst h
  · exact ⟨AlgorithmArgon2id, rfl⟩
  · exact ⟨AlgorithmArgon2i, rfl⟩

theorem VersionForm_iff (seg : List Char) :
    VersionForm seg ↔ ∃ i, Sscanf (String.mk seg) "v=%d" [.int] = .ok [i] := by
  constructor
  · rintro ⟨s, rest, i, hs, hi⟩
    exact ⟨i, (Sscanf_version_ok seg [i]).2 ⟨s, rest, i, hs, hi, rfl⟩⟩
  · rintro ⟨i, h⟩
    obtain ⟨s, rest, j, hs, hj, _⟩ := (Sscanf_version_ok seg [i]).1 h
    exact ⟨s, rest, j, hs, hj⟩

theorem CostForm_iff (seg : List Char) :
    CostForm seg ↔
      ∃ m t p : Nat, Sscanf (String.mk seg) "m=%d,t=%d,p=%d" [.uint32, .uint32, .uint8] =
        .ok [(m : Int), (t : Int), (p : Int)] := by
  constructor
  · rintro ⟨s1, s2, s3, rest, m, t, p, hs, hm, ht, hp⟩
    exact ⟨m, t, p, (Sscanf_cost_ok seg _).2 ⟨s1, s2, s3, rest, m, t, p, hs, hm, ht, hp, rfl⟩⟩
  · rintro ⟨m, t, p, h⟩
    obtain ⟨s1, s2, s3, rest, m', t', p', hs, hm, ht, hp, _⟩ := (Sscanf_cost_ok seg _).1 h
    exact ⟨s1, s2, s3, rest, m', t', p', hs, hm, ht, hp⟩

/-- C9 (as amended).  For every string of 6 segments with a recognised
algorithm name whose third segment does not have the form `VersionForm` (the
characters `v=`, then blanks, an optional sign and one or more decimal digits
whose value fits 64 bits, then any text), `DecodeArgon2` fails, and its error is
the error of `fmt.Sscanf`, which is not `ErrEncodingFormat`. -/
theorem C9_version_field (enc : String)
    (h6 : (stringsSplit '$' enc.data).length = 6)
    (halg : (stringsSplit '$' enc.data).getD 1 [] = "argon2id".data ∨
      (stringsSplit '$' enc.data).getD 1 [] = "argon2i".data)
    (hver : ¬ VersionForm ((stringsSplit '$' enc.data).getD 2 [])) :
    ∃ e, DecodeArgon2 enc = .error e ∧ e.IsScan ∧ e ≠ ErrEncodingFormat := by
  obtain ⟨alg, ha⟩ := argon2StringToAlgorithm_recognised _ halg
  obtain ⟨e, he, hscan⟩ := Sscanf_version_not_form _ hver
  refine ⟨e, ?_, hscan, hscan.ne_ErrEncodingFormat⟩
  simp only [DecodeArgon2, h6, ne_eq, not_true_eq_false, if_false, ha, he]

/-- C9, witness: the version segment `v=x`. -/
theorem C9_version_field_witness :
    (stringsSplit '$' "$argon2id$v=x$m=12288,t=3,p=4$Bw$CQ".data).length = 6 ∧
    ((stringsSplit '$' "$argon2id$v=x$m=12288,t=3,p=4$Bw$CQ".data).getD 1 [] = "argon2id".data ∨
      (stringsSplit '$' "$argon2id$v=x$m=12288,t=3,p=4$Bw$CQ".data).getD 1 [] = "argon2i".data) ∧
    ¬ VersionForm ((stringsSplit '$' "$argon2id$v=x$m=12288,t=3,p=4$Bw$CQ".data).getD 2 []) ∧
    ∃ e, DecodeArgon2 "$argon2id$v=x$m=12288,t=3,p=4$Bw$CQ" = .error e ∧ e.IsScan ∧
      e ≠ ErrEncodingFormat :=
  have hnot : ¬ VersionForm
      ((stringsSplit '$' "$argon2id$v=x$m=12288,t=3,p=4$Bw$CQ".data).getD 2 []) := by
    intro hf
    obtain ⟨i, hi⟩ := (VersionForm_iff _).1 hf
    have herr : Sscanf (String.mk
        ((stringsSplit '$' "$argon2id$v=x$m=12288,t=3,p=4$Bw$CQ".data).getD 2 [])) "v=%d" [.int] =
        .error scanExpectedInteger := by decide
    rw [herr] at hi
    cases hi
  ⟨by decide, Or.inl (by decide), hnot,
    C9_version_field "$argon2id$v=x$m=12288,t=3,p=4$Bw$CQ" (by decide) (Or.inl (by decide)) hnot⟩

/-- C9, counterexample to the claim as stated: the version segment `v=19abc`
is not of the form `v=<integer>` with nothing after, and `DecodeArgon2`
accepts the string; the version segment `v=x` makes `DecodeArgon2` fail with
the error "expected integer" of `fmt`, which is not `ErrEncodingFormat`. -/
theorem C9_counterexample :
    DecodeArgon2 "$argon2id$v=19abc$m=12288,t=3,p=4$Bw$CQ" =
      .ok ([9], [7], ⟨AlgorithmArgon2id, 1, 1, 3, 12288, 4, 19⟩) ∧
    DecodeArgon2 "$argon2id$v=x$m=12288,t=3,p=4$Bw$CQ" = .error scanExpectedInteger ∧
    DecodeArgon2 "$argon2id$v=x$m=12288,t=3,p=4$Bw$CQ" ≠ .error ErrEncodingFormat := by
  refine ⟨by decide, by decide, by decide⟩

/-- C10 (as amended).  For every string of 6 segments with a recognised
algorithm name and a version segment of the form `VersionForm`, whose fourth
segment does not have the form `CostForm` (`m=`, `,t=` and `,p=` in that order,
each followed by blanks and one or more decimal digits, each `,` right after
the digits before it, the values below 2^32, 2^32 and 2^8, then any text),
`DecodeArgon2` fails, and its error is the error of `fmt.Sscanf`, which is
not `ErrEncodingFormat`. -/
theorem C10_cost_field (enc : String)
    (h6 : (stringsSplit '$' enc.data).length = 6)
    (halg : (stringsSplit '$' enc.data).getD 1 [] = "argon2id".data ∨
      (stringsSplit '$' enc.data).getD 1 [] = "argon2i".data)
    (hver : VersionForm ((stringsSplit '$' enc.data).getD 2 []))
    (hcost : ¬ CostForm ((stringsSplit '$' enc.data).getD 3 [])) :
    ∃ e, DecodeArgon2 enc = .error e ∧ e.IsScan ∧ e ≠ ErrEncodingFormat := by
  obtain ⟨alg, ha⟩ := argon2StringToAlgorithm_recognised _ halg
  obtain ⟨i, hv⟩ := (VersionForm_iff _).1 hver
  obtain ⟨e, he, hscan⟩ := Sscanf_cost_not_form _ hcost
  refine ⟨e, ?_, hscan, hscan.ne_ErrEncodingFormat⟩
  simp only [DecodeArgon2, h6, ne_eq, not_true_eq_false, if_false, ha, hv, he]

/-- C10, witness: the cost segment with `p=256`, which does not fit 8 bits. -/
theorem C10_cost_field_witness :
    (stringsSplit '$' "$argon2id$v=19$m=12288,t=3,p=256$Bw$CQ".data).length = 6 ∧
    ((stringsSplit '$' "$argon2id$v=19$m=12288,t=3,p=256$Bw$CQ".data).getD 1 [] =
        "argon2id".data ∨
      (stringsSplit '$' "$argon2id$v=19$m=12288,t=3,p=256$Bw$CQ".data).getD 1 [] =
        "argon2i".data) ∧
    VersionForm ((stringsSplit '$' "$argon2id$v=19$m=12288,t=3,p=256$Bw$CQ".data).getD 2 []) ∧
    ¬ CostForm ((stringsSplit '$' "$argon2id$v=19$m=12288,t=3,p=256$Bw$CQ".data).getD 3 []) ∧
    ∃ e, DecodeArgon2 "$argon2id$v=19$m=12288,t=3,p=256$Bw$CQ" = .error e ∧ e.IsScan ∧
      e ≠ ErrEncodingFormat :=
  have hver : VersionForm
      ((stringsSplit '$' "$argon2id$v=19$m=12288,t=3,p=256$Bw$CQ".data).getD 2 []) :=
    (VersionForm_iff _).2 ⟨19, by decide⟩
  have hnot : ¬ CostForm
      ((stringsSplit '$' "$argon2id$v=19$m=12288,t=3,p=256$Bw$CQ".data).getD 3 []) := by
    intro hf
    obtain ⟨m, t, p, hi⟩ := (CostForm_iff _).1 hf
    have herr : Sscanf (String.mk
        ((stringsSplit '$' "$argon2id$v=19$m=12288,t=3,p=256$Bw$CQ".data).getD 3 []))
        "m=%d,t=%d,p=%d" [.uint32, .uint32, .uint8] = .error scanOverflow := by decide
    rw [herr] at hi
    cases hi
  ⟨by decide, Or.inl (by decide), hver, hnot,
    C10_cost_field "$argon2id$v=19$m=12288,t=3,p=256$Bw$CQ" (by decide) (Or.inl (by decide))
      hver hnot⟩

/-- C10, counterexample to the claim as stated: with `p=256` in the cost
segment `DecodeArgon2` fails with the error "unsigned integer overflow" of
`fmt`, which is not `ErrEncodingFormat`; and the cost segment
`m=12288,t=3,p=4xyz`, which is not of the form
`m=<integer>,t=<integer>,p=<integer>` with nothing after, is accepted. -/
theorem C10_counterexample :
    DecodeArgon2 "$argon2id$v=19$m=12288,t=3,p=256$Bw$CQ" = .error scanOverflow ∧
    DecodeArgon2 "$argon2id$v=19$m=12288,t=3,p=256$Bw$CQ" ≠ .error ErrEncodingFormat ∧
    DecodeArgon2 "$argon2id$v=19$m=12288,t=3,p=4xyz$Bw$CQ" =
      .ok ([9], [7], ⟨AlgorithmArgon2id, 1, 1, 3, 12288, 4, 19⟩) := by
  refine ⟨by decide, by decide, by decide⟩

/-! ## The texts that base64 decoding accepts -/

theorem decodeMap_ne_0xff_iff (c : Char) : decodeMap c ≠ 0xff ↔ inAlphabet c = true := by
  have hlen : encodeStd.length = 64 := by decide
  unfold decodeMap inAlphabet
  constructor
  · intro h
    by_cases hi : encodeStd.indexOf c < 64
    · rw [← hlen] at hi
      have := List.indexOf_lt_length.1 hi
      simpa using this
    · rw [if_neg hi] at h; exact absurd rfl h
  · intro h
    have hm : c ∈ encodeStd := by simpa using h
    have hi : encodeStd.indexOf c < 64 := by
      rw [← hlen]; exact List.indexOf_lt_length.2 hm
    rw [if_pos hi]
    omega

theorem decodeFrom_result (seg : List Char) (j : Nat) (hj : j < 4) (dbuf : List Nat) (si : Nat) :
    ((∀ c ∈ seg, inAlphabet c = true ∨ c = '\n' ∨ c = '\r') ∧
        (j + (seg.filter inAlphabet).length) % 4 ≠ 1 →
      ∃ bs, decodeFrom j dbuf si seg = .ok bs) ∧
    (¬ ((∀ c ∈ seg, inAlphabet c = true ∨ c = '\n' ∨ c = '\r') ∧
        (j + (seg.filter inAlphabet).length) % 4 ≠ 1) →
      ∃ off, decodeFrom j dbuf si seg = .error (base64Corrupt off)) := by
  induction seg generalizing j dbuf si with
  | nil =>
    simp only [decodeFrom, List.not_mem_nil, false_imp_iff, implies_true, true_and,
      List.filter_nil, List.length_nil, Nat.add_zero]
    constructor
    · intro h
      by_cases h0 : j = 0
      · exact ⟨_, by rw [if_pos h0]⟩
      · have h1 : j ≠ 1 := by omega
        exact ⟨_, by rw [if_neg h0, if_neg h1]⟩
    · intro h
      have h1 : j = 1 := by omega
      subst h1
      exact ⟨si - 1, by simp⟩
  | cons c cs ih =>
    by_cases ha : inAlphabet c = true
    · have hd := (decodeMap_ne_0xff_iff c).2 ha
      have hfil : ((c :: cs).filter inAlphabet).length = (cs.filter inAlphabet).length + 1 := by
        simp [List.filter, ha]
      have hall : (∀ x ∈ c :: cs, inAlphabet x = true ∨ x = '\n' ∨ x = '\r') ↔
          ∀ x ∈ cs, inAlphabet x = true ∨ x = '\n' ∨ x = '\r' := by
        simp [ha]
      rw [hall, hfil]
      by_cases h3 : j = 3
      · subst h3
        obtain ⟨ih1, ih2⟩ := ih 0 (by omega) [] (si + 1)
        simp only [decodeFrom]
        rw [if_pos hd, if_pos trivial]
        constructor
        · intro h
          obtain ⟨bs, hbs⟩ := ih1 ⟨h.1, by omega⟩
          exact ⟨_, by rw [hbs]⟩
        · intro h
          obtain ⟨off, hoff⟩ := ih2 (by
            intro h'; exact h ⟨h'.1, by omega⟩)
          exact ⟨off, by rw [hoff]⟩
      · obtain ⟨ih1, ih2⟩ := ih (j + 1) (by omega) (dbuf ++ [decodeMap c]) (si + 1)
        simp only [decodeFrom]
        rw [if_pos hd, if_neg h3]
        constructor
        · intro h
          exact ih1 ⟨h.1, by omega⟩
        · intro h
          exact ih2 (by intro h'; exact h ⟨h'.1, by omega⟩)
    · have hd : ¬ decodeMap c ≠ 0xff := fun h => ha ((decodeMap_ne_0xff_iff c).1 h)
      have hfil : ((c :: cs).filter inAlphabet).length = (cs.filter inAlphabet).length := by
        simp [List.filter, ha]
      rw [hfil]
      by_cases hnl : c = '\n' ∨ c = '\r'
      · have hall : (∀ x ∈ c :: cs, inAlphabet x = true ∨ x = '\n' ∨ x = '\r') ↔
            ∀ x ∈ cs, inAlphabet x = true ∨ x = '\n' ∨ x = '\r' := by
          simp [hnl]
        rw [hall]
        simp only [decodeFrom]
        rw [if_neg hd, if_pos hnl]
        exact ih j hj dbuf (si + 1)
      · simp only [decodeFrom]
        rw [if_neg hd, if_neg hnl]
        constructor
        · intro h
          have := h.1 c (by simp)
          rcases this with h' | h'
          · exact absurd h' ha
          · exact absurd h' hnl
        · intro _
          exact ⟨si, rfl⟩

theorem DecodeString_of_form (seg : List Char) (h : Base64Form seg) :
    ∃ bs, DecodeString seg = .ok bs :=
  (decodeFrom_result seg 0 (by decide) [] 0).1 (by simpa [Base64Form] using h)

theorem DecodeString_not_form (seg : List Char) (h : ¬ Base64Form seg) :
    ∃ off, DecodeString seg = .error (base64Corrupt off) :=
  (decodeFrom_result seg 0 (by decide) [] 0).2 (by simpa [Base64Form] using h)

theorem Base64Form_iff (seg : List Char) :
    Base64Form seg ↔ ∃ bs, DecodeString seg = .ok bs := by
  constructor
  · exact DecodeString_of_form seg
  · intro ⟨bs, h⟩
    by_contra hn
    obtain ⟨off, hoff⟩ := DecodeString_not_form seg hn
    rw [h] at hoff
    cases hoff

/-- C11 (as amended).  For every string of 6 segments with a recognised
algorithm name, a version segment of the form `VersionForm` and a cost segment
of the form `CostForm`, whose fifth or sixth segment does not have the form
`Base64Form` (characters of the alphabet, `\n` and `\r` only, the number of
characters of the alphabet not being 1 modulo 4), `DecodeArgon2` fails, and its
error is a `base64.CorruptInputError`, which is not `ErrEncodingFormat`. -/
theorem C11_invalid_base64 (enc : String)
    (h6 : (stringsSplit '$' enc.data).length = 6)
    (halg : (stringsSplit '$' enc.data).getD 1 [] = "argon2id".data ∨
      (stringsSplit '$' enc.data).getD 1 [] = "argon2i".data)
    (hver : VersionForm ((stringsSplit '$' enc.data).getD 2 []))
    (hcost : CostForm ((stringsSplit '$' enc.data).getD 3 []))
    (hb64 : ¬ Base64Form ((stringsSplit '$' enc.data).getD 4 []) ∨
      ¬ Base64Form ((stringsSplit '$' enc.data).getD 5 [])) :
    ∃ off, DecodeArgon2 enc = .error (base64Corrupt off) ∧
      DecodeArgon2 enc ≠ .error ErrEncodingFormat := by
  obtain ⟨alg, ha⟩ := argon2StringToAlgorithm_recognised _ halg
  obtain ⟨i, hv⟩ := (VersionForm_iff _).1 hver
  obtain ⟨m, t, p, hc⟩ := (CostForm_iff _).1 hcost
  have hdec : ∃ off, DecodeArgon2 enc = .error (base64Corrupt off) := by
    by_cases hs : Base64Form ((stringsSplit '$' enc.data).getD 4 [])
    · obtain ⟨salt, hsalt⟩ := DecodeString_of_form _ hs
      have hh : ¬ Base64Form ((stringsSplit '$' enc.data).getD 5 []) := by
        rcases hb64 with h | h
        · exact absurd hs h
        · exact h
      obtain ⟨off, hoff⟩ := DecodeString_not_form _ hh
      exact ⟨off, by
        simp only [DecodeArgon2, h6, ne_eq, not_true_eq_false, if_false, ha, hv, hc, hsalt, hoff]⟩
    · obtain ⟨off, hoff⟩ := DecodeString_not_form _ hs
      exact ⟨off, by
        simp only [DecodeArgon2, h6, ne_eq, not_true_eq_false, if_false, ha, hv, hc, hoff]⟩
  obtain ⟨off, hoff⟩ := hdec
  refine ⟨off, hoff, ?_⟩
  rw [hoff]
  intro h
  cases h

/-- C11, witness: a salt segment with `=` padding. -/
theorem C11_invalid_base64_witness :
    (stringsSplit '$' "$argon2id$v=19$m=12288,t=3,p=4$Bw==$CQ".data).length = 6 ∧
    ((stringsSplit '$' "$argon2id$v=19$m=12288,t=3,p=4$Bw==$CQ".data).getD 1 [] =
        "argon2id".data ∨
      (stringsSplit '$' "$argon2id$v=19$m=12288,t=3,p=4$Bw==$CQ".data).getD 1 [] =
        "argon2i".data) ∧
    VersionForm ((stringsSplit '$' "$argon2id$v=19$m=12288,t=3,p=4$Bw==$CQ".data).getD 2 []) ∧
    CostForm ((stringsSplit '$' "$argon2id$v=19$m=12288,t=3,p=4$Bw==$CQ".data).getD 3 []) ∧
    (¬ Base64Form ((stringsSplit '$' "$argon2id$v=19$m=12288,t=3,p=4$Bw==$CQ".data).getD 4 []) ∨
      ¬ Base64Form ((stringsSplit '$' "$argon2id$v=19$m=12288,t=3,p=4$Bw==$CQ".data).getD 5 [])) ∧
    ∃ off, DecodeArgon2 "$argon2id$v=19$m=12288,t=3,p=4$Bw==$CQ" = .error (base64Corrupt off) ∧
      DecodeArgon2 "$argon2id$v=19$m=12288,t=3,p=4$Bw==$CQ" ≠ .error ErrEncodingFormat :=
  have hver : VersionForm
      ((stringsSplit '$' "$argon2id$v=19$m=12288,t=3,p=4$Bw==$CQ".data).getD 2 []) :=
    (VersionForm_iff _).2 ⟨19, by decide⟩
  have hcost : CostForm
      ((stringsSplit '$' "$argon2id$v=19$m=12288,t=3,p=4$Bw==$CQ".data).getD 3 []) :=
    (CostForm_iff _).2 ⟨12288, 3, 4, by decide⟩
  ⟨by decide, Or.inl (by decide), hver, hcost, Or.inl (by decide),
    C11_invalid_base64 "$argon2id$v=19$m=12288,t=3,p=4$Bw==$CQ" (by decide) (Or.inl (by decide))
      hver hcost (Or.inl (by decide))⟩

/-- C11, counterexample to the claim as stated: with `=` padding in the salt
segment `DecodeArgon2` fails with `base64.CorruptInputError(2)`, which is not
`ErrEncodingFormat`; and a salt segment with a newline in it, a character
outside the alphabet, is accepted. -/
theorem C11_counterexample :
    DecodeArgon2 "$argon2id$v=19$m=12288,t=3,p=4$Bw==$CQ" = .error (base64Corrupt 2) ∧
    DecodeArgon2 "$argon2id$v=19$m=12288,t=3,p=4$Bw==$CQ" ≠ .error ErrEncodingFormat ∧
    inAlphabet '\n' = false ∧
    DecodeArgon2 "$argon2id$v=19$m=12288,t=3,p=4$B\nw$CQ" =
      .ok ([9], [7], ⟨AlgorithmArgon2id, 1, 1, 3, 12288, 4, 19⟩) := by
  refine ⟨by decide, by decide, by decide, by decide⟩

theorem DecodeArgon2_lengths (enc : String) (hash salt : List Byte) (p : Argon2Params)
    (h : DecodeArgon2 enc = .ok (hash, salt, p)) :
    p.SaltLength = salt.length % 2 ^ 32 ∧ p.KeyLength = hash.length % 2 ^ 32 := by
  unfold DecodeArgon2 at h
  simp only at h
  split at h
  · cases h
  · split at h
    · cases h
    · split at h
      · cases h
      · split at h
        · cases h
        · split at h
          · cases h
          · split at h
            · cases h
            · simp only [Except.ok.injEq, Prod.mk.injEq] at h
              obtain ⟨h1, h2, h3⟩ := h
              subst h1 h2 h3
              exact ⟨rfl, rfl⟩

/-- C12 (as amended).  Whenever `DecodeArgon2` succeeds, the returned params
have SaltLength equal to the length of the returned salt modulo 2^32 and
KeyLength equal to the length of the returned hash modulo 2^32, hence equal to
these lengths whenever they are below 2^32; and every pair of a hash and a
salt, of any lengths, zero included, is returned by `DecodeArgon2` on some
string. -/
theorem C12_derived_lengths (enc : String) (hash salt : List Byte) (p : Argon2Params)
    (h : DecodeArgon2 enc = .ok (hash, salt, p)) :
    p.SaltLength = salt.length % 2 ^ 32 ∧ p.KeyLength = hash.length % 2 ^ 32 ∧
    (salt.length < 2 ^ 32 → p.SaltLength = salt.length) ∧
    (hash.length < 2 ^ 32 → p.KeyLength = hash.length) ∧
    ∀ hash' salt' : List Byte, ∃ enc' p', DecodeArgon2 enc' = .ok (hash', salt', p') := by
  obtain ⟨hs, hk⟩ := DecodeArgon2_lengths enc hash salt p h
  refine ⟨hs, hk, ?_, ?_, ?_⟩
  · intro hlt; rw [hs, Nat.mod_eq_of_lt hlt]
  · intro hlt; rw [hk, Nat.mod_eq_of_lt hlt]
  · intro hash' salt'
    exact ⟨_, _, DecodeArgon2_encodedText "argon2id" AlgorithmArgon2id 1 1 1 salt' hash' rfl
      (by decide) (by decide) (by decide)⟩

/-- C12, witness: an encoding with an empty salt segment and an empty hash
segment. -/
theorem C12_derived_lengths_witness :
    DecodeArgon2 "$argon2id$v=19$m=12288,t=3,p=4$$" =
      .ok ([], [], ⟨AlgorithmArgon2id, 0, 0, 3, 12288, 4, 19⟩) ∧
    (0 = ([] : List Byte).length % 2 ^ 32 ∧ 0 = ([] : List Byte).length % 2 ^ 32 ∧
    (([] : List Byte).length < 2 ^ 32 → 0 = ([] : List Byte).length) ∧
    (([] : List Byte).length < 2 ^ 32 → 0 = ([] : List Byte).length) ∧
    ∀ hash' salt' : List Byte, ∃ enc' p', DecodeArgon2 enc' = .ok (hash', salt', p')) :=
  ⟨by decide,
    C12_derived_lengths "$argon2id$v=19$m=12288,t=3,p=4$$" [] []
      ⟨AlgorithmArgon2id, 0, 0, 3, 12288, 4, 19⟩ (by decide)⟩

/-- C12, counterexample to the claim as stated: the encoding of a salt of 2^32
zero bytes decodes to that salt, of length 2^32, with SaltLength 0. -/
theorem C12_counterexample :
    DecodeArgon2 (String.mk (encodedText "argon2id".data 12288 3 4
        (List.replicate (2 ^ 32) 0) [])) =
      .ok ([], List.replicate (2 ^ 32) 0, ⟨AlgorithmArgon2id, 0, 0, 3, 12288, 4, 19⟩) ∧
    (List.replicate (2 ^ 32) (0 : Byte)).length = 2 ^ 32 ∧
    (0 : Nat) ≠ 2 ^ 32 := by
  refine ⟨?_, List.length_replicate _ _, by decide⟩
  have h := DecodeArgon2_encodedText "argon2id" AlgorithmArgon2id 12288 3 4
    (List.replicate (2 ^ 32) 0) [] rfl (by decide) (by decide) (by decide)
  rw [h]
  simp only [List.length_replicate, Nat.mod_self, List.length_nil, Nat.zero_mod, argon2Version]
  rfl

/-- C13.  For every hash, salt and params, `EncodeArgon2` returns
`ErrUnknownAlgorithm` (and with it no string) exactly when `params.Algorithm` is
neither `AlgorithmArgon2id` nor `AlgorithmArgon2i`, and returns a string with no
error exactly in every other case, whatever the hash and the salt are; it
returns no other error. -/
theorem C13_encode_fails_on_unknown_algorithm (hash salt : List Byte) (p : Argon2Params) :
    (EncodeArgon2 hash salt p = .error ErrUnknownAlgorithm ↔
      ¬ (p.Algorithm = AlgorithmArgon2id ∨ p.Algorithm = AlgorithmArgon2i)) ∧
    ((∃ enc, EncodeArgon2 hash salt p = .ok enc) ↔
      (p.Algorithm = AlgorithmArgon2id ∨ p.Algorithm = AlgorithmArgon2i)) ∧
    (∀ e, EncodeArgon2 hash salt p = .error e → e = ErrUnknownAlgorithm) := by
  by_cases h0 : p.Algorithm = AlgorithmArgon2id
  · have hs : argon2AlgorithmToString p.Algorithm = .ok "argon2id" := by
      simp [argon2AlgorithmToString, h0]
    have he := EncodeArgon2_eq hash salt p _ hs
    refine ⟨?_, ?_, ?_⟩
    · rw [he]; simp [h0]
    · rw [he]; simp [h0]
    · intro e h; rw [he] at h; cases h
  · by_cases h1 : p.Algorithm = AlgorithmArgon2i
    · have hs : argon2AlgorithmToString p.Algorithm = .ok "argon2i" := by
        simp [argon2AlgorithmToString, h1, AlgorithmArgon2i, AlgorithmArgon2id]
      have he := EncodeArgon2_eq hash salt p _ hs
      refine ⟨?_, ?_, ?_⟩
      · rw [he]; simp [h1]
      · rw [he]; simp [h1]
      · intro e h; rw [he] at h; cases h
    · have hs : argon2AlgorithmToString p.Algorithm = .error ErrUnknownAlgorithm := by
        simp [argon2AlgorithmToString, h0, h1]
      have he : EncodeArgon2 hash salt p = .error ErrUnknownAlgorithm := by
        simp only [EncodeArgon2, hs]
      refine ⟨?_, ?_, ?_⟩
      · rw [he]; simp [h0, h1]
      · rw [he]; simp [h0, h1]
      · intro e h; rw [he] at h; cases h; rfl

/-- C13, witness: the Algorithm value 2 makes `EncodeArgon2` fail, the
parameters of the package's test make it return a string, with an empty hash
and an empty salt as well. -/
theorem C13_encode_fails_on_unknown_algorithm_witness :
    ¬ ((2 : Nat) = AlgorithmArgon2id ∨ (2 : Nat) = AlgorithmArgon2i) ∧
    EncodeArgon2 [1, 2, 3, 4] [72, 101, 108, 108, 111] { testParams with Algorithm := 2 } =
      .error ErrUnknownAlgorithm ∧
    EncodeArgon2 [] [] testParams = .ok "$argon2id$v=19$m=12288,t=3,p=4$$" ∧
    ∃ enc, EncodeArgon2 [] [] testParams = .ok enc :=
  ⟨by decide,
    (C13_encode_fails_on_unknown_algorithm [1, 2, 3, 4] [72, 101, 108, 108, 111]
      { testParams with Algorithm := 2 }).1.2 (by decide),
    by decide,
    (C13_encode_fails_on_unknown_algorithm [] [] testParams).2.1.2 (Or.inl rfl)⟩

/-- C14.  For every hash, salt and params with a recognised Algorithm, the
string returned by `EncodeArgon2` begins with `$` and, split on `$`, yields
exactly 6 segments: an empty one, the name of the algorithm, `v=` followed by
the decimal `argon2.Version`, `m=<Memory>,t=<Time>,p=<Threads>` in decimal, the
unpadded base64 of the salt and the unpadded base64 of the hash; no character
of the two base64 segments is `$` or `=`, and the decimal numbers are made of
digits only. -/
theorem C14_canonical_layout (hash salt : List Byte) (p : Argon2Params)
    (halg : p.Algorithm = AlgorithmArgon2id ∨ p.Algorithm = AlgorithmArgon2i) :
    ∃ enc name, EncodeArgon2 hash salt p = .ok enc ∧
      argon2AlgorithmToString p.Algorithm = .ok name ∧
      enc.data.head? = some '$' ∧
      stringsSplit '$' enc.data =
        [[], name.data, "v=".data ++ formatDecimal argon2Version,
          "m=".data ++ formatDecimal p.Memory ++ ",t=".data ++ formatDecimal p.Time ++
            ",p=".data ++ formatDecimal p.Threads,
          EncodeToString salt, EncodeToString hash] ∧
      (∀ c ∈ EncodeToString salt ++ EncodeToString hash, c ≠ '$' ∧ c ≠ '=') ∧
      (∀ c ∈ formatDecimal argon2Version ++ formatDecimal p.Memory ++ formatDecimal p.Time ++
        formatDecimal p.Threads, isDecimalDigit c = true) ∧
      formatDecimal argon2Version = "19".data := by
  obtain ⟨name, hname⟩ := argon2AlgorithmToString_recognised p.Algorithm halg
  obtain ⟨_, hdollar⟩ := argon2AlgorithmToString_ok p.Algorithm name hname
  refine ⟨_, name, EncodeArgon2_eq hash salt p name hname, hname, rfl, ?_, ?_, ?_, by decide⟩
  · rw [stringsSplit_encodedText _ _ _ _ _ _ hdollar]
    simp
  · intro c hc
    rcases List.mem_append.1 hc with h | h
    · exact EncodeToString_alphabet salt c h
    · exact EncodeToString_alphabet hash c h
  · intro c hc
    simp only [List.mem_append] at hc
    rcases hc with ((h | h) | h) | h
    · exact formatDecimal_digits _ c h
    · exact formatDecimal_digits _ c h
    · exact formatDecimal_digits _ c h
    · exact formatDecimal_digits _ c h

/-- C14, witness: a hash of four bytes, a salt of five bytes and the
parameters of the package's test. -/
theorem C14_canonical_layout_witness :
    (testParams.Algorithm = AlgorithmArgon2id ∨ testParams.Algorithm = AlgorithmArgon2i) ∧
    EncodeArgon2 [1, 2, 3, 4] [72, 101, 108, 108, 111] testParams =
      .ok "$argon2id$v=19$m=12288,t=3,p=4$SGVsbG8$AQIDBA" ∧
    ∃ enc name, EncodeArgon2 [1, 2, 3, 4] [72, 101, 108, 108, 111] testParams = .ok enc ∧
      argon2AlgorithmToString testParams.Algorithm = .ok name ∧
      enc.data.head? = some '$' ∧
      stringsSplit '$' enc.data =
        [[], name.data, "v=".data ++ formatDecimal argon2Version,
          "m=".data ++ formatDecimal testParams.Memory ++ ",t=".data ++
            formatDecimal testParams.Time ++ ",p=".data ++ formatDecimal testParams.Threads,
          EncodeToString [72, 101, 108, 108, 111], EncodeToString [1, 2, 3, 4]] ∧
      (∀ c ∈ EncodeToString [72, 101, 108, 108, 111] ++ EncodeToString [1, 2, 3, 4],
        c ≠ '$' ∧ c ≠ '=') ∧
      (∀ c ∈ formatDecimal argon2Version ++ formatDecimal testParams.Memory ++
        formatDecimal testParams.Time ++ formatDecimal testParams.Threads,
        isDecimalDigit c = true) ∧
      formatDecimal argon2Version = "19".data :=
  ⟨Or.inl rfl, by decide,
    C14_canonical_layout [1, 2, 3, 4] [72, 101, 108, 108, 111] testParams (Or.inl rfl)⟩

/-- C15.  `argon2AlgorithmToString` succeeds exactly on `AlgorithmArgon2id` (0)
and `AlgorithmArgon2i` (1), with the names `argon2id` and `argon2i`;
`argon2StringToAlgorithm` succeeds exactly on these two names, compared
character by character; every other value or string yields
`ErrUnknownAlgorithm`; and each function undoes the other on the inputs it
accepts. -/
theorem C15_name_conversion (a : Nat) (name : String) :
    AlgorithmArgon2id = 0 ∧ AlgorithmArgon2i = 1 ∧
    argon2AlgorithmToString AlgorithmArgon2id = .ok "argon2id" ∧
    argon2AlgorithmToString AlgorithmArgon2i = .ok "argon2i" ∧
    argon2StringToAlgorithm "argon2id" = .ok AlgorithmArgon2id ∧
    argon2StringToAlgorithm "argon2i" = .ok AlgorithmArgon2i ∧
    ((∃ s, argon2AlgorithmToString a = .ok s) ↔ (a = 0 ∨ a = 1)) ∧
    (¬ (a = 0 ∨ a = 1) → argon2AlgorithmToString a = .error ErrUnknownAlgorithm) ∧
    ((∃ v, argon2StringToAlgorithm name = .ok v) ↔ (name = "argon2id" ∨ name = "argon2i")) ∧
    (¬ (name = "argon2id" ∨ name = "argon2i") →
      argon2StringToAlgorithm name = .error ErrUnknownAlgorithm) ∧
    (argon2AlgorithmToString a = .ok name ↔ argon2StringToAlgorithm name = .ok a) ∧
    argon2StringToAlgorithm "Argon2id" = .error ErrUnknownAlgorithm ∧
    argon2AlgorithmToString 2 = .error ErrUnknownAlgorithm := by
  refine ⟨rfl, rfl, rfl, rfl, rfl, rfl, ?_, ?_, ?_, ?_, ?_, by decide, by decide⟩
  · constructor
    · rintro ⟨s, hs⟩
      unfold argon2AlgorithmToString at hs
      split at hs
      · rename_i h; exact Or.inl h
      · split at hs
        · rename_i h; exact Or.inr h
        · cases hs
    · rintro (h | h) <;> subst h
      · exact ⟨_, rfl⟩
      · exact ⟨_, rfl⟩
  · intro h
    have h0 : ¬ a = AlgorithmArgon2id := fun e => h (Or.inl e)
    have h1 : ¬ a = AlgorithmArgon2i := fun e => h (Or.inr e)
    simp only [argon2AlgorithmToString, h0, h1, if_false]
  · constructor
    · rintro ⟨v, hv⟩
      unfold argon2StringToAlgorithm at hv
      split at hv
      · rename_i h; exact Or.inl h
      · split at hv
        · rename_i h; exact Or.inr h
        · cases hv
    · rintro (h | h) <;> subst h
      · exact ⟨_, rfl⟩
      · exact ⟨_, rfl⟩
  · intro h
    have h0 : ¬ name = "argon2id" := fun e => h (Or.inl e)
    have h1 : ¬ name = "argon2i" := fun e => h (Or.inr e)
    simp only [argon2StringToAlgorithm, h0, h1, if_false]
  · constructor
    · intro h
      exact (argon2AlgorithmToString_ok a name h).1
    · intro h
      unfold argon2StringToAlgorithm at h
      split at h
      · rename_i hn
        cases h
        subst hn
        rfl
      · split at h
        · rename_i hn
          cases h
          subst hn
          rfl
        · cases h

/-- C15, witness: the value 2 and the name `_` of the package's test are
rejected, and the name of the value 1 converts back to 1. -/
theorem C15_name_conversion_witness :
    ¬ ((2 : Nat) = 0 ∨ (2 : Nat) = 1) ∧
    argon2AlgorithmToString 2 = .error ErrUnknownAlgorithm ∧
    ¬ ("_" = "argon2id" ∨ "_" = "argon2i") ∧
    argon2StringToAlgorithm "_" = .error ErrUnknownAlgorithm ∧
    argon2AlgorithmToString 1 = .ok "argon2i" ∧
    argon2StringToAlgorithm "argon2i" = .ok 1 :=
  ⟨by decide, (C15_name_conversion 2 "_").2.2.2.2.2.2.2.1 (by decide),
    by decide, (C15_name_conversion 2 "_").2.2.2.2.2.2.2.2.2.1 (by decide),
    by decide, (C15_name_conversion 1 "argon2i").2.2.2.2.2.2.2.2.2.2.1.1 (by decide)⟩

/-! ## Salt generation and hashing -/

theorem overwrite_length (buf written : List Byte) :
    (overwrite buf written).length = buf.length := by
  simp only [overwrite, List.length_append, List.length_take, List.length_drop]
  omega

theorem overwrite_full (buf written : List Byte) (h : written.length = buf.length) :
    overwrite buf written = written := by
  simp [overwrite, ← h]

theorem SecureSalt_ok_length {σ : Type} (read : RandRead σ) (st st' : σ) (n : Nat)
    (salt : List Byte) (h : SecureSalt read st n = (.ok salt, st')) : salt.length = n := by
  unfold SecureSalt at h
  simp only at h
  split at h
  · simp at h
  · simp only [Prod.mk.injEq, Except.ok.injEq] at h
    rw [← h.1, overwrite_length, List.length_replicate]

/-- C16.  For every random source, every state of it and every requested
length `n`, zero included: when the source returns no error, `SecureSalt(n)`
returns no error and a salt of exactly `n` bytes (the bytes the source wrote
when it wrote `n` of them, the empty salt for `n = 0`); when the source returns
an error, `SecureSalt` returns that same error and no salt. -/
theorem C16_secure_salt {σ : Type} (read : RandRead σ) (st : σ) (n : Nat) :
    (∀ written st', read st n = (written, none, st') →
      ∃ salt, SecureSalt read st n = (.ok salt, st') ∧ salt.length = n ∧
        (written.length = n → salt = written) ∧ (n = 0 → salt = [])) ∧
    (∀ written e st', read st n = (written, some e, st') →
      SecureSalt read st n = (.error e, st')) := by
  constructor
  · intro written st' h
    refine ⟨overwrite (List.replicate n 0) written, ?_, ?_, ?_, ?_⟩
    · simp only [SecureSalt, List.length_replicate, h]
    · rw [overwrite_length, List.length_replicate]
    · intro hw
      exact overwrite_full _ _ (by rw [hw, List.length_replicate])
    · intro h0
      apply List.eq_nil_of_length_eq_zero
      rw [overwrite_length, List.length_replicate, h0]
  · intro written e st' h
    simp only [SecureSalt, List.length_replicate, h]

/-- C16, witness: twelve bytes and no byte from a source that succeeds, twelve
bytes from a source that fails. -/
theorem C16_secure_salt_witness :
    SecureSalt counterRead 250 12 =
      (.ok [250, 251, 252, 253, 254, 255, 0, 1, 2, 3, 4, 5], 262) ∧
    SecureSalt counterRead 250 0 = (.ok [], 250) ∧
    SecureSalt failingRead 250 12 = (.error (randRead 5), 250) ∧
    (∃ salt, SecureSalt counterRead 250 12 = (.ok salt, 262) ∧ salt.length = 12 ∧
      (([250, 251, 252, 253, 254, 255, 0, 1, 2, 3, 4, 5] : List Byte).length = 12 →
        salt = [250, 251, 252, 253, 254, 255, 0, 1, 2, 3, 4, 5]) ∧ (12 = 0 → salt = [])) :=
  ⟨by decide, by decide, by decide,
    (C16_secure_salt counterRead 250 12).1
      [250, 251, 252, 253, 254, 255, 0, 1, 2, 3, 4, 5] 262 (by decide)⟩

/-- C17.  For every primitive, password, salt and params, `HashArgon2Raw`
returns the output of `IDKey` when Algorithm is `AlgorithmArgon2id`, the output
of `Key` when Algorithm is `AlgorithmArgon2i`, both called with (password,
salt, Time, Memory, Threads, KeyLength), and `ErrUnknownAlgorithm` with no key
for every other Algorithm; its result is fixed by its inputs, and among the
fields of params only Algorithm, Time, Memory, Threads and KeyLength count. -/
theorem C17_variant_dispatch (kdf : Argon2Primitive) (clear salt : List Byte)
    (p : Argon2Params) :
    (p.Algorithm = AlgorithmArgon2id →
      HashArgon2Raw kdf clear salt p =
        .ok (kdf.IDKey clear salt p.Time p.Memory p.Threads p.KeyLength)) ∧
    (p.Algorithm = AlgorithmArgon2i →
      HashArgon2Raw kdf clear salt p =
        .ok (kdf.Key clear salt p.Time p.Memory p.Threads p.KeyLength)) ∧
    (¬ (p.Algorithm = AlgorithmArgon2id ∨ p.Algorithm = AlgorithmArgon2i) →
      HashArgon2Raw kdf clear salt p = .error ErrUnknownAlgorithm) ∧
    (∀ q : Argon2Params, q.Algorithm = p.Algorithm → q.Time = p.Time → q.Memory = p.Memory →
      q.Threads = p.Threads → q.KeyLength = p.KeyLength →
      HashArgon2Raw kdf clear salt q = HashArgon2Raw kdf clear salt p) := by
  refine ⟨?_, ?_, ?_, ?_⟩
  · intro h
    have hs : argon2AlgorithmToString p.Algorithm = .ok "argon2id" := by
      simp [argon2AlgorithmToString, h]
    simp only [HashArgon2Raw, hs, if_true]
  · intro h
    have hs : argon2AlgorithmToString p.Algorithm = .ok "argon2i" := by
      rw [h]; rfl
    have hne : ¬ ("argon2i" = "argon2id") := by decide
    simp only [HashArgon2Raw, hs, hne, if_false]
  · intro h
    have h0 : ¬ p.Algorithm = AlgorithmArgon2id := fun e => h (Or.inl e)
    have h1 : ¬ p.Algorithm = AlgorithmArgon2i := fun e => h (Or.inr e)
    simp only [HashArgon2Raw, argon2AlgorithmToString, h0, h1, if_false]
  · intro q ha ht hm hth hk
    exact HashArgon2Raw_congr kdf clear salt q p ha ht hm hth hk

/-- C17, witness: the two variants and an unknown one with `sumPrimitive`,
whose two entry points differ. -/
theorem C17_variant_dispatch_witness :
    HashArgon2Raw sumPrimitive [1] [2] ⟨AlgorithmArgon2id, 1, 2, 3, 12288, 4, 0⟩ =
      .ok [10, 11] ∧
    HashArgon2Raw sumPrimitive [1] [2] ⟨AlgorithmArgon2i, 1, 2, 3, 12288, 4, 0⟩ =
      .ok [11, 12] ∧
    HashArgon2Raw sumPrimitive [1] [2] ⟨2, 1, 2, 3, 12288, 4, 0⟩ = .error ErrUnknownAlgorithm ∧
    HashArgon2Raw sumPrimitive [1] [2] ⟨AlgorithmArgon2id, 1, 2, 3, 12288, 4, 0⟩ =
      .ok (sumPrimitive.IDKey [1] [2] 3 12288 4 2) :=
  ⟨by decide, by decide, by decide,
    (C17_variant_dispatch sumPrimitive [1] [2] ⟨AlgorithmArgon2id, 1, 2, 3, 12288, 4, 0⟩).1 rfl⟩

theorem DecodeArgon2_algorithm (enc : String) (hash salt : List Byte) (p : Argon2Params)
    (h : DecodeArgon2 enc = .ok (hash, salt, p)) :
    p.Algorithm = AlgorithmArgon2id ∨ p.Algorithm = AlgorithmArgon2i := by
  unfold DecodeArgon2 at h
  simp only at h
  split at h
  · cases h
  · split at h
    · cases h
    · rename_i alg halg
      have ha : alg = AlgorithmArgon2id ∨ alg = AlgorithmArgon2i := by
        unfold argon2StringToAlgorithm at halg
        split at halg
        · cases halg; exact Or.inl rfl
        · split at halg
          · cases halg; exact Or.inr rfl
          · cases halg
      split at h
      · cases h
      · split at h
        · cases h
        · split at h
          · cases h
          · split at h
            · cases h
            · simp only [Except.ok.injEq, Prod.mk.injEq] at h
              obtain ⟨_, _, h3⟩ := h
              subst h3
              exact ha

/-- C18.  For every primitive, password and encoded string: whenever
`DecodeArgon2` succeeds, the decoded params carry a recognised Algorithm and
`HashArgon2Raw` on them returns a key and no error, so the branch of
`VerifyArgon2` that turns a derivation error into `(false, nil)` is never
taken; `VerifyArgon2` returns `(true, nil)` exactly when decoding succeeds, the
version is `argon2.Version` and the recomputed key equals the decoded hash, and
it returns `(false, nil)` exactly when decoding succeeds, the version is
`argon2.Version` and the recomputed key differs from the decoded hash. -/
theorem C18_derivation_error_unreachable (kdf : Argon2Primitive) (password enc : String) :
    (∀ hash salt p, DecodeArgon2 enc = .ok (hash, salt, p) →
      (p.Algorithm = AlgorithmArgon2id ∨ p.Algorithm = AlgorithmArgon2i) ∧
      ∃ key, HashArgon2Raw kdf (stringBytes password) salt p = .ok key) ∧
    (VerifyArgon2 kdf password enc = (true, none) ↔
      ∃ hash salt p, DecodeArgon2 enc = .ok (hash, salt, p) ∧
        p.Version = (argon2Version : Int) ∧
        HashArgon2Raw kdf (stringBytes password) salt p = .ok hash) ∧
    (VerifyArgon2 kdf password enc = (false, none) ↔
      ∃ hash salt p key, DecodeArgon2 enc = .ok (hash, salt, p) ∧
        p.Version = (argon2Version : Int) ∧
        HashArgon2Raw kdf (stringBytes password) salt p = .ok key ∧ key ≠ hash) := by
  have hkey : ∀ hash salt p, DecodeArgon2 enc = .ok (hash, salt, p) →
      (p.Algorithm = AlgorithmArgon2id ∨ p.Algorithm = AlgorithmArgon2i) ∧
      ∃ key, HashArgon2Raw kdf (stringBytes password) salt p = .ok key := by
    intro hash salt p h
    have ha := DecodeArgon2_algorithm enc hash salt p h
    exact ⟨ha, HashArgon2Raw_recognised kdf _ salt p ha⟩
  refine ⟨hkey, ?_, ?_⟩
  · cases hdec : DecodeArgon2 enc with
    | error e =>
      have hv : VerifyArgon2 kdf password enc = (false, some e) := by
        simp only [VerifyArgon2, hdec]
      rw [hv]
      constructor
      · intro h; cases h
      · rintro ⟨_, _, _, h, _⟩; cases h
    | ok r =>
      obtain ⟨hash, salt, p⟩ := r
      obtain ⟨_, key, hk⟩ := hkey hash salt p hdec
      by_cases hv : p.Version = (argon2Version : Int)
      · have hver : VerifyArgon2 kdf password enc =
            if key = hash then (true, none) else (false, none) := by
          simp only [VerifyArgon2, hdec, hv, ne_eq, not_true_eq_false, if_false, hk]
        rw [hver]
        by_cases heq : key = hash
        · rw [if_pos heq]
          exact ⟨fun _ => ⟨hash, salt, p, rfl, hv, by rw [hk, heq]⟩, fun _ => rfl⟩
        · rw [if_neg heq]
          constructor
          · intro h; cases h
          · rintro ⟨h', s', p', h1, _, h3⟩
            cases h1
            rw [hk] at h3
            exact absurd (Except.ok.inj h3) heq
      · have hver : VerifyArgon2 kdf password enc = (false, some ErrVersionMismatch) := by
          simp only [VerifyArgon2, hdec, hv, ne_eq, not_false_eq_true, if_true]
        rw [hver]
        constructor
        · intro h; cases h
        · rintro ⟨h', s', p', h1, h2, _⟩
          cases h1
          exact absurd h2 hv
  · cases hdec : DecodeArgon2 enc with
    | error e =>
      have hv : VerifyArgon2 kdf password enc = (false, some e) := by
        simp only [VerifyArgon2, hdec]
      rw [hv]
      constructor
      · intro h; cases h
      · rintro ⟨_, _, _, _, h, _⟩; cases h
    | ok r =>
      obtain ⟨hash, salt, p⟩ := r
      obtain ⟨_, key, hk⟩ := hkey hash salt p hdec
      by_cases hv : p.Version = (argon2Version : Int)
      · have hver : VerifyArgon2 kdf password enc =
            if key = hash then (true, none) else (false, none) := by
          simp only [VerifyArgon2, hdec, hv, ne_eq, not_true_eq_false, if_false, hk]
        rw [hver]
        by_cases heq : key = hash
        · rw [if_pos heq]
          constructor
          · intro h; cases h
          · rintro ⟨h', s', p', k', h1, _, h3, h4⟩
            cases h1
            rw [hk] at h3
            exact absurd ((Except.ok.inj h3).symm ▸ heq) h4
        · rw [if_neg heq]
          exact ⟨fun _ => ⟨hash, salt, p, key, rfl, hv, hk, heq⟩, fun _ => rfl⟩
      · have hver : VerifyArgon2 kdf password enc = (false, some ErrVersionMismatch) := by
          simp only [VerifyArgon2, hdec, hv, ne_eq, not_false_eq_true, if_true]
        rw [hver]
        constructor
        · intro h; cases h
        · rintro ⟨h', s', p', k', h1, h2, _⟩
          cases h1
          exact absurd h2 hv

/-- C18, witness: an encoding that `DecodeArgon2` accepts, and the key that
`HashArgon2Raw` returns on its decoded params. -/
theorem C18_derivation_error_unreachable_witness :
    DecodeArgon2 "$argon2id$v=19$m=12288,t=3,p=4$Bw$CQ" =
      .ok ([9], [7], ⟨AlgorithmArgon2id, 1, 1, 3, 12288, 4, 19⟩) ∧
    ((AlgorithmArgon2id = AlgorithmArgon2id ∨ AlgorithmArgon2id = AlgorithmArgon2i) ∧
      ∃ key, HashArgon2Raw sumPrimitive (stringBytes "HelloWorld") [7]
        ⟨AlgorithmArgon2id, 1, 1, 3, 12288, 4, 19⟩ = .ok key) :=
  ⟨by decide,
    (C18_derivation_error_unreachable sumPrimitive "HelloWorld"
      "$argon2id$v=19$m=12288,t=3,p=4$Bw$CQ").1 [9] [7]
      ⟨AlgorithmArgon2id, 1, 1, 3, 12288, 4, 19⟩ (by decide)⟩

theorem EncodeArgon2_congr (hash salt : List Byte) (p q : Argon2Params)
    (ha : p.Algorithm = q.Algorithm) (hm : p.Memory = q.Memory) (ht : p.Time = q.Time)
    (hp : p.Threads = q.Threads) : EncodeArgon2 hash salt p = EncodeArgon2 hash salt q := by
  simp only [EncodeArgon2, ha, hm, ht, hp]

/-- C19 (as amended).  For every hash, salt and two params that agree on
Algorithm, Memory, Time and Threads, `EncodeArgon2` returns the same result;
when the Algorithm is recognised (and the fields lie in the ranges of their
types) that result is a string whose version segment is `v=19`, the text of
`argon2.Version`, and decoding it yields the hash, the salt and params with
Version `argon2.Version`, SaltLength the length of the salt modulo 2^32 and
KeyLength the length of the hash modulo 2^32, whatever Version, SaltLength and
KeyLength were in the input params. -/
theorem C19_encode_ignores_fields (hash salt : List Byte) (p q : Argon2Params)
    (ha : p.Algorithm = q.Algorithm) (hm : p.Memory = q.Memory) (ht : p.Time = q.Time)
    (hp : p.Threads = q.Threads)
    (halg : p.Algorithm = AlgorithmArgon2id ∨ p.Algorithm = AlgorithmArgon2i)
    (hwt : p.WellTyped) :
    EncodeArgon2 hash salt p = EncodeArgon2 hash salt q ∧
    ∃ enc p', EncodeArgon2 hash salt p = .ok enc ∧
      (stringsSplit '$' enc.data).getD 2 [] = "v=19".data ∧
      DecodeArgon2 enc = .ok (hash, salt, p') ∧
      p'.Version = (argon2Version : Int) ∧
      p'.SaltLength = salt.length % 2 ^ 32 ∧
      p'.KeyLength = hash.length % 2 ^ 32 ∧
      (salt.length < 2 ^ 32 → p'.SaltLength = salt.length) ∧
      (hash.length < 2 ^ 32 → p'.KeyLength = hash.length) := by
  obtain ⟨name, hname⟩ := argon2AlgorithmToString_recognised p.Algorithm halg
  obtain ⟨_, hdollar⟩ := argon2AlgorithmToString_ok p.Algorithm name hname
  obtain ⟨_, _, _, hti, hme, hth, _⟩ := hwt
  refine ⟨EncodeArgon2_congr hash salt p q ha hm ht hp, _, _,
    EncodeArgon2_eq hash salt p name hname, ?_,
    DecodeArgon2_encodedText name p.Algorithm p.Memory p.Time p.Threads salt hash hname
      hme hti hth, rfl, rfl, rfl, ?_, ?_⟩
  · rw [stringsSplit_encodedText _ _ _ _ _ _ hdollar]
    have h19 : formatDecimal argon2Version = "19".data := by decide
    simp only [List.getD_cons_succ, List.getD_cons_zero, h19]
  · intro h; exact Nat.mod_eq_of_lt h
  · intro h; exact Nat.mod_eq_of_lt h

/-- C19, witness: the parameters of the package's test and the same
parameters with other values of Version, SaltLength and KeyLength. -/
theorem C19_encode_ignores_fields_witness :
    testParams.WellTyped ∧
    EncodeArgon2 [1, 2, 3, 4] [72, 101, 108, 108, 111] testParams =
      EncodeArgon2 [1, 2, 3, 4] [72, 101, 108, 108, 111]
        { testParams with Version := 7, SaltLength := 99, KeyLength := 1 } ∧
    ∃ enc p', EncodeArgon2 [1, 2, 3, 4] [72, 101, 108, 108, 111] testParams = .ok enc ∧
      (stringsSplit '$' enc.data).getD 2 [] = "v=19".data ∧
      DecodeArgon2 enc = .ok ([1, 2, 3, 4], [72, 101, 108, 108, 111], p') ∧
      p'.Version = (argon2Version : Int) ∧
      p'.SaltLength = ([72, 101, 108, 108, 111] : List Byte).length % 2 ^ 32 ∧
      p'.KeyLength = ([1, 2, 3, 4] : List Byte).length % 2 ^ 32 ∧
      (([72, 101, 108, 108, 111] : List Byte).length < 2 ^ 32 →
        p'.SaltLength = ([72, 101, 108, 108, 111] : List Byte).length) ∧
      (([1, 2, 3, 4] : List Byte).length < 2 ^ 32 →
        p'.KeyLength = ([1, 2, 3, 4] : List Byte).length) :=
  ⟨by decide,
    C19_encode_ignores_fields [1, 2, 3, 4] [72, 101, 108, 108, 111] testParams
      { testParams with Version := 7, SaltLength := 99, KeyLength := 1 } rfl rfl rfl rfl
      (Or.inl rfl) (by decide)⟩

/-- C19, counterexample to the claim as stated: `EncodeArgon2` of a hash of
2^32 zero bytes returns a string, and decoding that string returns the hash,
of length 2^32, with KeyLength 0. -/
theorem C19_counterexample :
    EncodeArgon2 (List.replicate (2 ^ 32) 0) [] testParams =
      .ok (String.mk (encodedText "argon2id".data 12288 3 4 []
        (List.replicate (2 ^ 32) 0))) ∧
    DecodeArgon2 (String.mk (encodedText "argon2id".data 12288 3 4 []
        (List.replicate (2 ^ 32) 0))) =
      .ok (List.replicate (2 ^ 32) 0, [], ⟨AlgorithmArgon2id, 0, 0, 3, 12288, 4, 19⟩) ∧
    (List.replicate (2 ^ 32) (0 : Byte)).length = 2 ^ 32 ∧
    (0 : Nat) ≠ 2 ^ 32 := by
  refine ⟨EncodeArgon2_eq _ _ testParams "argon2id" rfl, ?_, List.length_replicate _ _,
    by decide⟩
  have h := DecodeArgon2_encodedText "argon2id" AlgorithmArgon2id 12288 3 4 []
    (List.replicate (2 ^ 32) 0) rfl (by decide) (by decide) (by decide)
  rw [h]
  simp only [List.length_replicate, Nat.mod_self, List.length_nil, Nat.zero_mod, argon2Version]
  rfl

/-- C20.  For every primitive, random source, password and params: when
`SecureSalt(params.SaltLength)` returns a salt `s` and the Algorithm is
recognised, `HashArgon2` returns the key of `HashArgon2Raw` on the bytes of the
password, `s` and the params, together with `s`, which has exactly
`params.SaltLength` bytes, and no error; when `SecureSalt` fails, `HashArgon2`
returns its error, and neither key nor salt, whatever the Algorithm is; when
the Algorithm is not recognised, `HashArgon2` returns `ErrUnknownAlgorithm`, and
neither key nor salt, after the salt has been taken from the random
source. -/
theorem C20_hash_agrees_with_raw {σ : Type} (kdf : Argon2Primitive) (read : RandRead σ)
    (st : σ) (password : String) (p : Argon2Params) :
    (∀ s st', SecureSalt read st p.SaltLength = (.ok s, st') →
      (p.Algorithm = AlgorithmArgon2id ∨ p.Algorithm = AlgorithmArgon2i) →
      ∃ key, HashArgon2Raw kdf (stringBytes password) s p = .ok key ∧
        HashArgon2 kdf read st password p = (.ok (key, s), st') ∧
        s.length = p.SaltLength) ∧
    (∀ e st', SecureSalt read st p.SaltLength = (.error e, st') →
      HashArgon2 kdf read st password p = (.error e, st')) ∧
    (∀ s st', SecureSalt read st p.SaltLength = (.ok s, st') →
      ¬ (p.Algorithm = AlgorithmArgon2id ∨ p.Algorithm = AlgorithmArgon2i) →
      HashArgon2 kdf read st password p = (.error ErrUnknownAlgorithm, st')) := by
  refine ⟨?_, ?_, ?_⟩
  · intro s st' hs halg
    obtain ⟨name, hname⟩ := argon2AlgorithmToString_recognised p.Algorithm halg
    have hlen := SecureSalt_ok_length read st st' p.SaltLength s hs
    by_cases hid : name = "argon2id"
    · refine ⟨kdf.IDKey (stringBytes password) s p.Time p.Memory p.Threads p.KeyLength,
        ?_, ?_, hlen⟩
      · simp only [HashArgon2Raw, hname, hid, if_true]
      · simp only [HashArgon2, hs, hname, hid, if_true]
    · refine ⟨kdf.Key (stringBytes password) s p.Time p.Memory p.Threads p.KeyLength,
        ?_, ?_, hlen⟩
      · simp only [HashArgon2Raw, hname, hid, if_false]
      · simp only [HashArgon2, hs, hname, hid, if_false]
  · intro e st' hs
    simp only [HashArgon2, hs]
  · intro s st' hs halg
    have h0 : ¬ p.Algorithm = AlgorithmArgon2id := fun e => halg (Or.inl e)
    have h1 : ¬ p.Algorithm = AlgorithmArgon2i := fun e => halg (Or.inr e)
    simp only [HashArgon2, hs, argon2AlgorithmToString, h0, h1, if_false]

/-- C20, witness: the password "HelloWorld" and the parameters of the
package's test, with `sumPrimitive` and the source `counterRead` in state 250;
and the same call with a source that fails. -/
theorem C20_hash_agrees_with_raw_witness :
    SecureSalt counterRead 250 testParams.SaltLength =
      (.ok [250, 251, 252, 253, 254, 255, 0, 1, 2, 3, 4, 5], 262) ∧
    (testParams.Algorithm = AlgorithmArgon2id ∨ testParams.Algorithm = AlgorithmArgon2i) ∧
    HashArgon2 sumPrimitive failingRead 250 "HelloWorld" testParams =
      (.error (randRead 5), 250) ∧
    HashArgon2 sumPrimitive counterRead 250 "HelloWorld" { testParams with Algorithm := 2 } =
      (.error ErrUnknownAlgorithm, 262) ∧
    ∃ key, HashArgon2Raw sumPrimitive (stringBytes "HelloWorld")
        [250, 251, 252, 253, 254, 255, 0, 1, 2, 3, 4, 5] testParams = .ok key ∧
      HashArgon2 sumPrimitive counterRead 250 "HelloWorld" testParams =
        (.ok (key, [250, 251, 252, 253, 254, 255, 0, 1, 2, 3, 4, 5]), 262) ∧
      ([250, 251, 252, 253, 254, 255, 0, 1, 2, 3, 4, 5] : List Byte).length =
        testParams.SaltLength :=
  ⟨by decide, Or.inl rfl, by decide, by decide,
    (C20_hash_agrees_with_raw sumPrimitive counterRead 250 "HelloWorld" testParams).1
      [250, 251, 252, 253, 254, 255, 0, 1, 2, 3, 4, 5] 262 (by decide) (Or.inl rfl)⟩

end Password
